import Mathlib

/-!
Verification of the hypermedia affordance document model
(`lib/input.js`, `lib/affordance.js`, `lib/affordances.js`, `lib/naval.js`).

The JavaScript data model is shallowly embedded:
* `JsVal` is a small universe of JavaScript values (undefined, null,
  booleans, integers, strings, arrays, plain objects);
* `Input`, `Affordance` and the tree type `Node` (whose `comp`
  constructor is an `Affordances` collection) mirror the constructor
  functions of the source, with every guarded setter translated from the
  source predicate;
* JavaScript object-property assignment (`obj[k] = v`) is `jsObjSet`,
  which replaces the value at an existing key in place or appends a new
  key at the end, exactly as JS insertion-ordered objects behave.

Mutation is handled in two layers: a pure layer where field assignment
is functional record update (sufficient for all value-level claims),
and an identity-annotated layer (namespace `Ident`, further below)
where tree nodes carry allocation tags and metadata objects live in an
explicit store, so that claims about object identity, aliasing and
absence of in-place mutation can be stated and proved.
-/

/-- JavaScript values, as far as this library observes them. -/
inductive JsVal where
  | undefined
  | jnull
  | jbool (b : Bool)
  | jnum (n : Int)
  | jstr (s : String)
  | jarr (xs : List JsVal)
  | jobj (fs : List (String × JsVal))
deriving Repr

namespace JsVal

/-- Source `typeof v === 'string'`. -/
def isStr : JsVal → Bool
  | jstr _ => true
  | _ => false

/-- Source `typeof v === 'boolean'`. -/
def isBool : JsVal → Bool
  | jbool _ => true
  | _ => false

/-- Source `Array.isArray(v)`. -/
def isArr : JsVal → Bool
  | jarr _ => true
  | _ => false

/-- JavaScript truthiness (`!!v`). -/
def truthy : JsVal → Bool
  | undefined => false
  | jnull => false
  | jbool b => b
  | jnum n => !(n == 0)
  | jstr s => !(s == "")
  | jarr _ => true
  | jobj _ => true

/-- Source `!!v && typeof v === 'object'`: the guard used by `setMetadata` and
by `cascadeMetadata` to decide whether a value is a usable object. -/
def isObjLike : JsVal → Bool
  | jarr _ => true
  | jobj _ => true
  | _ => false

/-- Source `Array.isArray(v) && v.length > 0`: the guard of `setAccept` and
`setValueOptions`. -/
def isNonEmptyArr : JsVal → Bool
  | jarr (_ :: _) => true
  | _ => false

end JsVal

/-- First-occurrence association lookup: JS property read `fs[k]`. -/
def lookupField (fs : List (String × JsVal)) (k : String) : Option JsVal :=
  match fs with
  | [] => none
  | (k', v) :: rest => if k' = k then some v else lookupField rest k

/-- JS property assignment `obj[k] = v` on an insertion-ordered object:
overwrite in place when the key exists, append otherwise. -/
def jsObjSet (fs : List (String × JsVal)) (k : String) (v : JsVal) :
    List (String × JsVal) :=
  match fs with
  | [] => [(k, v)]
  | (k', v') :: rest =>
      if k' = k then (k', v) :: rest else (k', v') :: jsObjSet rest k v

/-- Own enumerable properties, in `for..in` order: an object's fields in
insertion order, an array's elements under their index keys. -/
def ownEntries : JsVal → List (String × JsVal)
  | JsVal.jobj fs => fs
  | JsVal.jarr xs => (xs.enum.map fun p => (toString p.1, p.2))
  | _ => []

section InputModel

/-- Source `Input` (`lib/input.js`).  Optional fields start life as `undefined` and
are only ever written through their guarded setters. -/
structure Input where
  _id : String
  _value : JsVal
  _accept : JsVal := .undefined
  _required : JsVal := .undefined
  _label : JsVal := .undefined
  _hidden : JsVal := .undefined
  _readonly : JsVal := .undefined
  _options : JsVal := .undefined
  _regexp : JsVal := .undefined
deriving Repr

/-- Source `function Input(id, value)`: non-string id coerced to `''`,
undefined value coerced to `''`. -/
def mkInput (id value : JsVal) : Input :=
  { _id := match id with | .jstr s => s | _ => ""
  , _value := match value with | .undefined => .jstr "" | v => v }

namespace Input

/-- Source `Input.setId`: installs only strings. -/
def setId (i : Input) (id : JsVal) : Input :=
  match id with | .jstr s => { i with _id := s } | _ => i

/-- Source `Input.setValue`: installs anything defined. -/
def setValue (i : Input) (value : JsVal) : Input :=
  match value with | .undefined => i | v => { i with _value := v }

/-- Source `Input.setAccept`: installs only non-empty arrays. -/
def setAccept (i : Input) (accept : JsVal) : Input :=
  if accept.isNonEmptyArr then { i with _accept := accept } else i

/-- Source `Input.setRequired`: installs only booleans. -/
def setRequired (i : Input) (required : JsVal) : Input :=
  if required.isBool then { i with _required := required } else i

/-- Source `Input.setLabel`: installs only strings. -/
def setLabel (i : Input) (label : JsVal) : Input :=
  if label.isStr then { i with _label := label } else i

/-- Source `Input.setHidden`: installs only booleans. -/
def setHidden (i : Input) (hidden : JsVal) : Input :=
  if hidden.isBool then { i with _hidden := hidden } else i

/-- Source `Input.setReadonly`: installs only booleans. -/
def setReadonly (i : Input) (readonly : JsVal) : Input :=
  if readonly.isBool then { i with _readonly := readonly } else i

/-- Source `Input.setValueOptions`: installs only non-empty arrays. -/
def setValueOptions (i : Input) (options : JsVal) : Input :=
  if options.isNonEmptyArr then { i with _options := options } else i

/-- Source `Input.setRegExp`: installs only strings. -/
def setRegExp (i : Input) (regexp : JsVal) : Input :=
  if regexp.isStr then { i with _regexp := regexp } else i

/-- Source `Input.toJSON` (`lib/input.js`): the plain-object form. -/
def toJSON (i : Input) : JsVal :=
  .jobj [ ("_id", .jstr i._id), ("_value", i._value), ("_accept", i._accept)
        , ("_hidden", i._hidden), ("_label", i._label), ("_options", i._options)
        , ("_readonly", i._readonly), ("_regexp", i._regexp)
        , ("_required", i._required) ]

/-- Source `Input.copy`: `new Input()` then every setter applied to the current
field, so each field survives exactly when it passes its own setter's
guard. -/
def copy (i : Input) : Input :=
  (((((((((mkInput .undefined .undefined).setId (.jstr i._id)).setValue
    i._value).setAccept i._accept).setRequired i._required).setLabel
    i._label).setHidden i._hidden).setReadonly i._readonly).setValueOptions
    i._options).setRegExp i._regexp

end Input

/-- JS property read on a plain value: `v[k]`, `undefined` when absent
or when the receiver is not an object. -/
def getProp (v : JsVal) (k : String) : JsVal :=
  match v with
  | .jobj fs => (lookupField fs k).getD .undefined
  | _ => .undefined

/-- Source `input.canRevive` (`lib/input.js`): the argument is a truthy object
with a string `_id` and a defined `_value`. -/
def inputCanRevive (v : JsVal) : Bool :=
  v.isObjLike && (getProp v "_id").isStr &&
    !(match getProp v "_value" with | .undefined => true | _ => false)

/-- Source `input.revive` (`lib/input.js`): rebuild an `Input` through the
guarded setters; `null` (here `none`) when the duck-type test fails. -/
def inputRevive (v : JsVal) : Option Input :=
  if inputCanRevive v then
    some ((((((((((mkInput .undefined .undefined).setId (getProp v "_id")).setValue
      (getProp v "_value")).setAccept (getProp v "_accept")).setRequired
      (getProp v "_required")).setLabel (getProp v "_label")).setHidden
      (getProp v "_hidden")).setReadonly (getProp v "_readonly")).setValueOptions
      (getProp v "_options")).setRegExp (getProp v "_regexp"))
  else none

end InputModel

section AffordanceModel

/-- Source `Affordance` (`lib/affordance.js`).  `_relation` and `_metadata`
start undefined; `_controls` is absent until `addInput` first runs;
`_messages` is the response-message table. -/
structure Affordance where
  _id : String
  _method : String
  _uri : String
  _relation : JsVal := .undefined
  _metadata : JsVal := .undefined
  _controls : Option (List Input) := none
  _messages : List (String × JsVal)
deriving Repr

/-- Source `function Affordance(id, method, uri)`: non-string arguments coerce
to `''`; the message table starts as `{'*': [this._id]}`. -/
def mkAffordance (id method uri : JsVal) : Affordance :=
  let i := match id with | .jstr s => s | _ => ""
  { _id := i
  , _method := match method with | .jstr s => s | _ => ""
  , _uri := match uri with | .jstr s => s | _ => ""
  , _messages := [("*", .jarr [.jstr i])] }

namespace Affordance

/-- Source `Affordance.addMessage(response, message)`: installs
`messages[response] = message` only when `response` is a string and
`message` a non-empty array; the `for..in` loop over the array returns
early (without installing) at the first non-string entry, so the net
effect is to install exactly when every entry is a string and to leave
the table untouched otherwise. -/
def addMessage (a : Affordance) (response message : JsVal) : Affordance :=
  match response, message with
  | .jstr r, .jarr l =>
      if 0 < l.length then
        if l.all JsVal.isStr then
          { a with _messages := jsObjSet a._messages r (.jarr l) }
        else a
      else a
  | _, _ => a

/-- Source `Affordance.getMessage(response)`: the exact-match entry when it is
truthy, else the `'*'` entry. -/
def getMessage (a : Affordance) (response : String) : JsVal :=
  let message := (lookupField a._messages response).getD .undefined
  if message.truthy then message else (lookupField a._messages "*").getD .undefined

/-- Source `Affordance.setRelation`: installs only strings. -/
def setRelation (a : Affordance) (relation : JsVal) : Affordance :=
  if relation.isStr then { a with _relation := relation } else a

/-- Source `Affordance.setMetadata`: installs only truthy objects. -/
def setMetadata (a : Affordance) (metadata : JsVal) : Affordance :=
  if metadata.isObjLike then { a with _metadata := metadata } else a

/-- Source `Affordance.addInput(control)`: materialises the controls array if
absent, then appends.  The Lean type of `control` makes the
`input.isPrototypeOf` guard vacuously true.  The second guard,
`controls.lastIndexOf(control) === -1`, compares JavaScript object
references; the pure layer has no reference identity, and every call
site in this library passes a freshly constructed `Input` (for which
the guard always passes), so the pure layer appends unconditionally.
The identity-annotated layer below models the reference check through
allocation tags. -/
def addInput (a : Affordance) (control : Input) : Affordance :=
  { a with _controls := some (a._controls.getD [] ++ [control]) }

end Affordance

/-- The merged-metadata value computed by `cascadeMetadata` (the
function appears verbatim in both `lib/affordance.js` and
`lib/affordances.js`): when either side is a truthy object, a fresh
object receiving first the parent's own enumerable fields and then the
child's (overwriting on key collision); otherwise undefined. -/
def cascadeMergedVal (childMeta parentMeta : JsVal) : JsVal :=
  if parentMeta.isObjLike || childMeta.isObjLike then
    .jobj (List.foldl (fun m kv => jsObjSet m kv.1 kv.2)
      (List.foldl (fun m kv => jsObjSet m kv.1 kv.2) [] (ownEntries parentMeta))
      (ownEntries childMeta))
  else .undefined

/-- Source `Affordance.cascadeMetadata(parentMeta)`: overwrite this node's
metadata field with the merged value. -/
def Affordance.cascadeMetadata (a : Affordance) (parentMeta : JsVal) : Affordance :=
  { a with _metadata := cascadeMergedVal a._metadata parentMeta }

/-- Source `Affordance.copy`: rebuild from the constructor (which resets the
message table to its default), then `setRelation`/`setMetadata` with
the current fields, then `copy.addInput(control.copy())` for every
control.  When the original has no controls array — or an empty one —
the loop body never runs and the copy's controls stay absent. -/
def Affordance.copy (a : Affordance) : Affordance :=
  let base := ((mkAffordance (.jstr a._id) (.jstr a._method) (.jstr a._uri)).setRelation
    a._relation).setMetadata a._metadata
  match a._controls with
  | some (c :: cs) => { base with _controls := some ((c :: cs).map Input.copy) }
  | _ => base

end AffordanceModel

section TreeModel

/-- An `Affordances` tree (`lib/affordances.js`).  `comp id metadata
affs` is an `Affordances` instance: optional `_id` (set only when the
constructor or `setId` received a string), `_metadata` (undefined until
`setMetadata`), and the `_affordances` array whose members are each an
`Affordance` or a nested `Affordances`. -/
inductive Node where
  | leaf (a : Affordance)
  | comp (id : Option String) (metadata : JsVal) (affs : List Node)
deriving Repr

/-- The `_id` property as the search loop reads it: a string on an
`Affordance`, possibly undefined on an `Affordances`. -/
def nodeIdOf : Node → Option String
  | .leaf a => some a._id
  | .comp i _ _ => i

/-- Source `getMetadata()` on either node kind. -/
def Node.getMetadata : Node → JsVal
  | .leaf a => a._metadata
  | .comp _ m _ => m

/-- Source `Affordances.setId` (identity on a leaf only because the method
exists solely on the `Affordances` prototype). -/
def Node.setId (n : Node) (id : JsVal) : Node :=
  match n, id with
  | .comp _ m kids, .jstr s => .comp (some s) m kids
  | n, _ => n

/-- Source `Affordances.setMetadata` (identity on a leaf, as above). -/
def Node.setMetadata (n : Node) (metadata : JsVal) : Node :=
  match n with
  | .comp i _ kids => if metadata.isObjLike then .comp i metadata kids else n
  | .leaf _ => n

/-- Source `cascadeMetadata` on either node kind: overwrite the receiver's
metadata with the merged value. -/
def Node.cascadeMetadata (n : Node) (parentMeta : JsVal) : Node :=
  match n with
  | .leaf a => .leaf (a.cascadeMetadata parentMeta)
  | .comp i m kids => .comp i (cascadeMergedVal m parentMeta) kids

mutual
/-- Source `copy()` on either node kind.  `Affordances.copy` builds
`new Affordances().setId(this._id).setMetadata(this._metadata)` and
then `addAffordance(child.copy())` for every child; fresh copies always
pass `addAffordance`'s reference-identity duplicate guard. -/
def Node.copy : Node → Node
  | .leaf a => .leaf a.copy
  | .comp i m kids => .comp i (if m.isObjLike then m else .undefined) (Node.copyList kids)

/-- The `addAffordance(child.copy())` loop of `Affordances.copy`. -/
def Node.copyList : List Node → List Node
  | [] => []
  | n :: rest => Node.copy n :: Node.copyList rest
end

mutual
/-- The recursive call `member.hasAffordanceWithId(id)` made by the
search loop on members that are themselves collections (the method
exists only on the `Affordances` prototype, so the leaf case is never
invoked). -/
def hasIdNode (s : String) : Node → Bool
  | .leaf _ => false
  | .comp _ _ kids => hasIdLoop s kids

/-- The search loop of `Affordances.hasAffordanceWithId`: check each
member's own `_id`, then recurse into members that are themselves
collections, else keep scanning. -/
def hasIdLoop (s : String) : List Node → Bool
  | [] => false
  | n :: rest =>
      if nodeIdOf n = some s then true
      else
        match n with
        | .comp _ _ _ =>
            if hasIdNode s n then true else hasIdLoop s rest
        | .leaf _ => hasIdLoop s rest
end

/-- Source `Affordances.hasAffordanceWithId(id)`: non-string ids are rejected
up front; the receiver's own `_id` is never compared, only members'. -/
def Node.hasAffordanceWithId (n : Node) (idv : JsVal) : Bool :=
  match n with
  | .comp _ _ kids =>
      match idv with
      | .jstr s => hasIdLoop s kids
      | _ => false
  | .leaf _ => false

mutual
/-- The recursive call `member.copyAffordanceById(id)` made by the
search loop on collection members (again a method of `Affordances`
alone, so the leaf case is never invoked). -/
def caidNode (s : String) : Node → Option Node
  | .leaf _ => none
  | .comp _ m kids => caidLoop s m kids

/-- The search loop of `Affordances.copyAffordanceById`: on an `_id`
match return `member.copy().cascadeMetadata(this._metadata)`; a match
bubbling up from a nested collection gets this level's metadata
cascaded onto it as well. -/
def caidLoop (s : String) (meta : JsVal) : List Node → Option Node
  | [] => none
  | n :: rest =>
      if nodeIdOf n = some s then some ((Node.copy n).cascadeMetadata meta)
      else
        match n with
        | .comp _ _ _ =>
            match caidNode s n with
            | some found => some (found.cascadeMetadata meta)
            | none => caidLoop s meta rest
        | .leaf _ => caidLoop s meta rest
end

/-- Source `Affordances.copyAffordanceById(id)`: `null` for non-string ids and
when nothing matches. -/
def Node.copyAffordanceById (n : Node) (idv : JsVal) : Option Node :=
  match n with
  | .comp _ m kids =>
      match idv with
      | .jstr s => caidLoop s m kids
      | _ => none
  | .leaf _ => none

end TreeModel

section SpecSide

/-- Nested-list induction principle for `Node`. -/
theorem Node.inductionOn (P : Node → Prop)
    (hleaf : ∀ a, P (.leaf a))
    (hcomp : ∀ i m kids, (∀ n ∈ kids, P n) → P (.comp i m kids)) :
    ∀ n, P n := fun n =>
  match n with
  | .leaf a => hleaf a
  | .comp i m kids => hcomp i m kids (fun c hc =>
      have : sizeOf c < sizeOf (Node.comp i m kids) := by
        have h1 := List.sizeOf_lt_of_mem hc
        simp only [Node.comp.sizeOf_spec]
        omega
      Node.inductionOn P hleaf hcomp c)
termination_by n => sizeOf n

mutual
/-- Spec-side: "some node in the tree (at any depth) has that id",
counting the node itself. -/
def containsId (s : String) : Node → Bool
  | .leaf a => decide (a._id = s)
  | .comp i _ kids => decide (i = some s) || containsIdList s kids

/-- Spec-side: some member of the list, at any depth, has the id. -/
def containsIdList (s : String) : List Node → Bool
  | [] => false
  | n :: rest => containsId s n || containsIdList s rest
end

mutual
/-- Spec-side: first match inside one collection member, together with
the metadata of every composite between the member's surface and the
match, nearest first. -/
def dfsFindNode (s : String) : Node → Option (Node × List JsVal)
  | .leaf _ => none
  | .comp _ cm ckids =>
      match dfsFind s ckids with
      | some (f, anc) => some (f, anc ++ [cm])
      | none => none

/-- Spec-side depth-first first-match search over a member list,
recording the metadata of every composite the match bubbles up
through — nearest ancestor first (the searched collection's own
metadata is appended by the caller). -/
def dfsFind (s : String) : List Node → Option (Node × List JsVal)
  | [] => none
  | n :: rest =>
      if nodeIdOf n = some s then some (n, [])
      else
        match n with
        | .comp _ _ _ =>
            match dfsFindNode s n with
            | some r => some r
            | none => dfsFind s rest
        | .leaf _ => dfsFind s rest
end

/-- Key lookup on a metadata value: on a plain object the first-matching
field, otherwise absent. -/
def metaGet (v : JsVal) (k : String) : Option JsVal :=
  match v with
  | .jobj fs => lookupField fs k
  | _ => none

/-- The first defined value in a precedence list. -/
def firstSome : List (Option JsVal) → Option JsVal
  | [] => none
  | some v :: _ => some v
  | none :: rest => firstSome rest

/-- Last-occurrence association lookup: the value a sequence of
property writes leaves at a key. -/
def assocLast (es : List (String × JsVal)) (k : String) : Option JsVal :=
  match es with
  | [] => none
  | (k', v) :: rest =>
      match assocLast rest k with
      | some w => some w
      | none => if k' = k then some v else none

mutual
/-- Spec-side: the original tree with every `Affordance`'s message
table reset to its constructor default — what `copy()` actually
preserves of a tree's fields. -/
def resetMessages : Node → Node
  | .leaf a => .leaf { a with _messages := [("*", .jarr [.jstr a._id])] }
  | .comp i m kids => .comp i m (resetMessagesList kids)

/-- Mapping `resetMessages` over a member list. -/
def resetMessagesList : List Node → List Node
  | [] => []
  | n :: rest => resetMessages n :: resetMessagesList rest
end

/-- A metadata field as the guarded writes can leave it: undefined, or
a plain object with distinct keys (JavaScript objects cannot repeat a
key; arrays, though `setMetadata` would accept one, never arise as
metadata in this library's documented use). -/
def wfMetaVal : JsVal → Bool
  | .undefined => true
  | .jobj fs => decide (fs.map Prod.fst).Nodup
  | _ => false

/-- An optional string field as `setRelation`/`setLabel`/… leave it. -/
def wfStrOpt : JsVal → Bool
  | .undefined => true
  | .jstr _ => true
  | _ => false

/-- An optional boolean field as `setRequired`/… leave it. -/
def wfBoolOpt : JsVal → Bool
  | .undefined => true
  | .jbool _ => true
  | _ => false

/-- An optional non-empty-array field as `setAccept`/`setValueOptions`
leave it. -/
def wfArrOpt : JsVal → Bool
  | .undefined => true
  | .jarr (_ :: _) => true
  | _ => false

/-- All field invariants the `Input` constructor and setters establish. -/
def Input.WF (i : Input) : Bool :=
  !(match i._value with | .undefined => true | _ => false) &&
    wfArrOpt i._accept && wfBoolOpt i._required && wfStrOpt i._label &&
    wfBoolOpt i._hidden && wfBoolOpt i._readonly && wfArrOpt i._options &&
    wfStrOpt i._regexp

/-- Field invariants of an `Affordance` as constructor and setters
establish them, with a non-empty controls list when one exists (an
empty list is reachable only by calling `addInput` with a non-Input). -/
def Affordance.WF (a : Affordance) : Bool :=
  wfStrOpt a._relation && wfMetaVal a._metadata &&
    (match a._controls with
     | none => true
     | some [] => false
     | some l => l.all Input.WF)

mutual
/-- Field invariants over a whole tree. -/
def Node.WF : Node → Bool
  | .leaf a => a.WF
  | .comp _ m kids => wfMetaVal m && Node.WFList kids

/-- Checking `Node.WF` over a member list. -/
def Node.WFList : List Node → Bool
  | [] => true
  | n :: rest => Node.WF n && Node.WFList rest
end

end SpecSide

section CodecModel

/-!
The NavAL JSON codec (`lib/naval.js`).  During `JSON.parse` with the
`navalJsonReviver`, inner values have already been replaced by revived
instances by the time an outer value is examined, so the value universe
of the reviver contains plain parsed JSON values *and* typed instances.
`RVal` is that universe: revived `Affordance`, `Input` and
`Affordances` instances appear as the `affI`, `inpI` and `affsI`
constructors, carrying their fields (optional fields are `undefined` when
never set, exactly as in the instance models above).
-/

/-- The reviver's value universe: parsed JSON values plus revived
instances. -/
inductive RVal where
  | undefined
  | rnull
  | rbool (b : Bool)
  | rnum (n : Int)
  | rstr (s : String)
  | rarr (xs : List RVal)
  | robj (fs : List (String × RVal))
  | affI (id method uri : String) (relation metadata controls : RVal)
      (messages : List (String × RVal))
  | inpI (id : String) (value accept required label hidden readonly options regexp : RVal)
  | affsI (id metadata : RVal) (children : List RVal)
deriving Repr

namespace RVal

/-- First-occurrence association lookup on reviver-universe objects. -/
def lookupR (fs : List (String × RVal)) (k : String) : Option RVal :=
  match fs with
  | [] => none
  | (k', v) :: rest => if k' = k then some v else lookupR rest k

/-- JS property read `v[k]` in the reviver universe.  Instances expose
their own fields under the underscored names used by the source. -/
def getPropR (v : RVal) (k : String) : RVal :=
  match v with
  | robj fs => (lookupR fs k).getD undefined
  | affI id method uri relation metadata controls messages =>
      if k = "_id" then rstr id
      else if k = "_method" then rstr method
      else if k = "_uri" then rstr uri
      else if k = "_relation" then relation
      else if k = "_metadata" then metadata
      else if k = "_controls" then controls
      else if k = "_messages" then robj messages
      else undefined
  | inpI id value accept required label hidden readonly options regexp =>
      if k = "_id" then rstr id
      else if k = "_value" then value
      else if k = "_accept" then accept
      else if k = "_required" then required
      else if k = "_label" then label
      else if k = "_hidden" then hidden
      else if k = "_readonly" then readonly
      else if k = "_options" then options
      else if k = "_regexp" then regexp
      else undefined
  | affsI id metadata children =>
      if k = "_id" then id
      else if k = "_metadata" then metadata
      else if k = "_affordances" then rarr children
      else undefined
  | _ => undefined

/-- Source `!!v && typeof v === 'object'` in the reviver universe: arrays,
plain objects and instances; primitives and `null` fail. -/
def isObjectR : RVal → Bool
  | rarr _ => true
  | robj _ => true
  | affI .. => true
  | inpI .. => true
  | affsI .. => true
  | _ => false

/-- Source `typeof v === 'string'`. -/
def isStrR : RVal → Bool
  | rstr _ => true
  | _ => false

/-- Source `Array.isArray(v)`. -/
def isArrR : RVal → Bool
  | rarr _ => true
  | _ => false

/-- Source `typeof v !== 'undefined'`. -/
def isDefinedR : RVal → Bool
  | undefined => false
  | _ => true

/-- Source `affordance.isPrototypeOf(v)`: a revived `Affordance` instance. -/
def isAffInstance : RVal → Bool
  | affI .. => true
  | _ => false

/-- Source `affordances.isPrototypeOf(v)`: a revived `Affordances` instance. -/
def isAffsInstance : RVal → Bool
  | affsI .. => true
  | _ => false

/-- Source `input.isPrototypeOf(v)`: a revived `Input` instance. -/
def isInpInstance : RVal → Bool
  | inpI .. => true
  | _ => false

end RVal

open RVal

/-- Source `affordance.canRevive` (`lib/affordance.js`): a truthy object whose
`_id`, `_method` and `_uri` are all strings. -/
def affordanceCanRevive (v : RVal) : Bool :=
  v.isObjectR && (v.getPropR "_id").isStrR && (v.getPropR "_method").isStrR &&
    (v.getPropR "_uri").isStrR

/-- Source `input.canRevive` (`lib/input.js`): a truthy object with a string
`_id` and a defined `_value`. -/
def inputCanReviveR (v : RVal) : Bool :=
  v.isObjectR && (v.getPropR "_id").isStrR && (v.getPropR "_value").isDefinedR

/-- Source `affordances.canRevive` (`lib/affordances.js`): a truthy object
whose `_affordances` is an array. -/
def affordancesCanRevive (v : RVal) : Bool :=
  v.isObjectR && (v.getPropR "_affordances").isArrR

/-- Source `input.revive` in the reviver universe: rebuild through the guarded
setters (each optional field survives exactly when it passes its
setter's predicate); `null` when the duck-type test fails. -/
def inputReviveR (v : RVal) : RVal :=
  if inputCanReviveR v then
    .inpI (match v.getPropR "_id" with | .rstr s => s | _ => "")
      (match v.getPropR "_value" with | .undefined => .rstr "" | w => w)
      (match v.getPropR "_accept" with
       | .rarr (x :: xs) => .rarr (x :: xs) | _ => .undefined)
      (match v.getPropR "_required" with | .rbool b => .rbool b | _ => .undefined)
      (match v.getPropR "_label" with | .rstr s => .rstr s | _ => .undefined)
      (match v.getPropR "_hidden" with | .rbool b => .rbool b | _ => .undefined)
      (match v.getPropR "_readonly" with | .rbool b => .rbool b | _ => .undefined)
      (match v.getPropR "_options" with
       | .rarr (x :: xs) => .rarr (x :: xs) | _ => .undefined)
      (match v.getPropR "_regexp" with | .rstr s => .rstr s | _ => .undefined)
  else .rnull

/-- Source `affordance.revive` (`lib/affordance.js`): under the duck-type
guard, `new Affordance(id, method, uri)` (message table reset to its
default) with `setRelation`/`setMetadata` applied to the plain fields,
then `addInput` for each element of a `_controls` array.  `addInput`
keeps only `Input` instances; its reference-identity duplicate guard
always passes here because every array slot of a freshly parsed
document is a distinct object. -/
def affordanceReviveR (v : RVal) : RVal :=
  if affordanceCanRevive v then
    .affI (match v.getPropR "_id" with | .rstr s => s | _ => "")
      (match v.getPropR "_method" with | .rstr s => s | _ => "")
      (match v.getPropR "_uri" with | .rstr s => s | _ => "")
      (match v.getPropR "_relation" with | .rstr s => .rstr s | _ => .undefined)
      (if (v.getPropR "_metadata").isObjectR then v.getPropR "_metadata" else .undefined)
      (match v.getPropR "_controls" with
       | .rarr [] => .undefined
       | .rarr (x :: xs) => .rarr ((x :: xs).filter RVal.isInpInstance)
       | _ => .undefined)
      [("*", .rarr [match v.getPropR "_id" with | .rstr s => .rstr s | _ => .rstr ""])]
  else .rnull

/-- Source `affordances.revive` (`lib/affordances.js`): under the duck-type
guard, `new Affordances().setId(...).setMetadata(...)`, then
`addAffordance` for each element of the `_affordances` array, keeping
only `Affordance`/`Affordances` instances (the duplicate guard again
compares distinct parsed slots). -/
def affordancesReviveR (v : RVal) : RVal :=
  if affordancesCanRevive v then
    .affsI (match v.getPropR "_id" with | .rstr s => .rstr s | _ => .undefined)
      (if (v.getPropR "_metadata").isObjectR then v.getPropR "_metadata" else .undefined)
      (match v.getPropR "_affordances" with
       | .rarr xs => xs.filter (fun x => x.isAffInstance || x.isAffsInstance)
       | _ => [])
  else .rnull

/-- Source function `navalJsonReviver` (`lib/naval.js`): on a truthy object, try —
in this fixed order — the `Affordance`, `Input`, `Affordances`
duck-type tests and rebuild via the first matching type's own `revive`;
everything else passes through unchanged. -/
def navalJsonReviver (v : RVal) : RVal :=
  if v.isObjectR then
    if affordanceCanRevive v then affordanceReviveR v
    else if inputCanReviveR v then inputReviveR v
    else if affordancesCanRevive v then affordancesReviveR v
    else v
  else v

mutual
/-- The reviver pass of `JSON.parse(string, navalJsonReviver)`: walk
the parsed value bottom-up, replacing each property value by the
reviver's output (the reviver never returns undefined here, so the
deletion branch of `JSON.parse` is never taken). -/
def reviveWalk : RVal → RVal
  | .rarr xs => navalJsonReviver (.rarr (reviveWalkList xs))
  | .robj fs => navalJsonReviver (.robj (reviveWalkFields fs))
  | v => navalJsonReviver v

/-- Applying `reviveWalk` over an array's elements. -/
def reviveWalkList : List RVal → List RVal
  | [] => []
  | x :: xs => reviveWalk x :: reviveWalkList xs

/-- Applying `reviveWalk` over an object's properties. -/
def reviveWalkFields : List (String × RVal) → List (String × RVal)
  | [] => []
  | (k, x) :: fs => (k, reviveWalk x) :: reviveWalkFields fs
end

/-- The NavAL decode delegate (`lib/naval.js`).  `JSON.parse` is a
platform builtin, so its outcome is the model's input: `none` when
parsing throws (non-string argument or invalid JSON syntax — the
`catch` branch), `some p` when it yields the parsed value `p`.  The
revived result is returned only when it is an `Affordance` or
`Affordances` instance; otherwise the delegate answers `null`. -/
def shouldDecodeDelegate (parsed : Option RVal) : Option RVal :=
  match parsed with
  | none => none
  | some p =>
      let object := reviveWalk p
      if object.isAffInstance || object.isAffsInstance then some object
      else none

end CodecModel

namespace Ident

/-!
The identity-annotated layer.  JavaScript object identity and the
in-place mutation performed by `cascadeMetadata` cannot be observed in
the pure layer, so here every tree node and every `Input` carries an
allocation tag drawn from a monotone counter, and metadata objects live
in an explicit store addressed by the same counter: a node's
`_metadata` field holds an address (sharing an address models sharing
the object reference).  Reachable metadata fields are `undefined` or an
object — `setMetadata` installs nothing else — which is why the field
is an optional address.  Every state change of the source maps to
either a fresh allocation or the construction of a new node value; the
frame theorems below show the store is only ever extended.
-/

/-- Contents of one metadata object. -/
abbrev MetaFs := List (String × JsVal)

/-- Allocation state: the next fresh tag and the metadata heap. -/
structure St where
  next : Nat
  store : List (Nat × MetaFs)

/-- Heap read on a raw store. -/
def storeGetL (st : List (Nat × MetaFs)) (a : Nat) : Option MetaFs :=
  match st with
  | [] => none
  | (a', fs) :: rest => if a' = a then some fs else storeGetL rest a

/-- Heap read. -/
def storeGet (σ : St) (a : Nat) : Option MetaFs :=
  storeGetL σ.store a

/-- Allocate a fresh metadata object. -/
def allocMeta (σ : St) (fs : MetaFs) : Nat × St :=
  (σ.next, ⟨σ.next + 1, (σ.next, fs) :: σ.store⟩)

/-- Draw a fresh node tag (no heap cell: node fields live in the tree
values themselves). -/
def allocRef (σ : St) : Nat × St :=
  (σ.next, ⟨σ.next + 1, σ.store⟩)

/-- Heap addresses in use stay below the counter. -/
def WSt (σ : St) : Prop := ∀ p ∈ σ.store, p.1 < σ.next

/-- An `Input` instance with its identity tag. -/
structure InputI where
  ref : Nat
  val : Input

/-- The `Input.copy` operation with identity: a fresh object with the fields the pure copy keeps. -/
def InputI.copy (i : InputI) (σ : St) : InputI × St :=
  let (r, σ') := allocRef σ
  (⟨r, i.val.copy⟩, σ')

/-- An `Affordance` instance with its identity tag and its metadata
held as a heap address. -/
structure AffordanceI where
  ref : Nat
  _id : String
  _method : String
  _uri : String
  _relation : JsVal
  _metadata : Option Nat
  _controls : Option (List InputI)
  _messages : List (String × JsVal)

/-- The `addInput(control.copy())` loop of `Affordance.copy`. -/
def copyInputs : List InputI → St → List InputI × St
  | [], σ => ([], σ)
  | i :: is, σ =>
      let (c, σ1) := InputI.copy i σ
      let (cs, σ2) := copyInputs is σ1
      (c :: cs, σ2)

/-- The `Affordance.copy` operation with identity: a fresh object (default message
table), relation through its setter's guard, the metadata *address*
shared (the shallow copy shares the object reference), and a fresh
copy of every control. -/
def AffordanceI.copy (a : AffordanceI) (σ : St) : AffordanceI × St :=
  let (r, σ1) := allocRef σ
  match a._controls with
  | some (c :: cs) =>
      let (copies, σ2) := copyInputs (c :: cs) σ1
      ({ ref := r, _id := a._id, _method := a._method, _uri := a._uri
       , _relation := if a._relation.isStr then a._relation else .undefined
       , _metadata := a._metadata
       , _controls := some copies
       , _messages := [("*", .jarr [.jstr a._id])] }, σ2)
  | _ =>
      ({ ref := r, _id := a._id, _method := a._method, _uri := a._uri
       , _relation := if a._relation.isStr then a._relation else .undefined
       , _metadata := a._metadata
       , _controls := none
       , _messages := [("*", .jarr [.jstr a._id])] }, σ1)

/-- An `Affordances` tree with identity tags. -/
inductive NodeI where
  | leaf (a : AffordanceI)
  | comp (ref : Nat) (id : Option String) (metadata : Option Nat) (affs : List NodeI)

/-- The `_id` property as the search loops read it. -/
def nodeIdOfI : NodeI → Option String
  | .leaf a => some a._id
  | .comp _ i _ _ => i

/-- The metadata address of a node. -/
def metaAddrOf : NodeI → Option Nat
  | .leaf a => a._metadata
  | .comp _ _ m _ => m

/-- The body of `cascadeMetadata` with identity: when either side is an
object, read both objects' fields and allocate a **new** object holding
the parent's fields overwritten by the child's; the merged value is
returned for assignment into the receiver's field.  No existing heap
cell is written. -/
def cascadeMetaI (childMeta parentMeta : Option Nat) (σ : St) : Option Nat × St :=
  if parentMeta.isSome || childMeta.isSome then
    let pfs := (parentMeta.bind (storeGet σ)).getD []
    let cfs := (childMeta.bind (storeGet σ)).getD []
    let merged := List.foldl (fun m kv => jsObjSet m kv.1 kv.2)
      (List.foldl (fun m kv => jsObjSet m kv.1 kv.2) [] pfs) cfs
    let (a, σ') := allocMeta σ merged
    (some a, σ')
  else (none, σ)

/-- The assignment `this._metadata = mergedMetadata` on a node — the source performs
this assignment only on freshly made copies. -/
def NodeI.cascadeMeta (n : NodeI) (parentMeta : Option Nat) (σ : St) : NodeI × St :=
  match n with
  | .leaf a =>
      let (m', σ') := cascadeMetaI a._metadata parentMeta σ
      (.leaf { a with _metadata := m' }, σ')
  | .comp r i m kids =>
      let (m', σ') := cascadeMetaI m parentMeta σ
      (.comp r i m' kids, σ')

mutual
/-- The `copy()` operation with identity: every node of the result is a fresh object;
an `Affordances` copy keeps its `_id` and shares its metadata address. -/
def NodeI.copy : NodeI → St → NodeI × St
  | .leaf a, σ =>
      let (c, σ') := a.copy σ
      (.leaf c, σ')
  | .comp _ i m kids, σ =>
      let (r, σ1) := allocRef σ
      let (ckids, σ2) := NodeI.copyList kids σ1
      (.comp r i m ckids, σ2)

/-- The `addAffordance(child.copy())` loop of `Affordances.copy`. -/
def NodeI.copyList : List NodeI → St → List NodeI × St
  | [], σ => ([], σ)
  | n :: rest, σ =>
      let (c, σ1) := NodeI.copy n σ
      let (cs, σ2) := NodeI.copyList rest σ1
      (c :: cs, σ2)
end

mutual
/-- The recursive `member.copyAffordanceById(id)` call with identity. -/
def caidNodeI (s : String) : NodeI → St → Option NodeI × St
  | .leaf _, σ => (none, σ)
  | .comp _ _ m kids, σ => caidLoopI s m kids σ

/-- The search loop of `copyAffordanceById` with identity: on a match,
copy the member and cascade this level's metadata onto the copy; a
match bubbling up gets this level's metadata cascaded as well. -/
def caidLoopI (s : String) (meta : Option Nat) : List NodeI → St → Option NodeI × St
  | [], σ => (none, σ)
  | n :: rest, σ =>
      if nodeIdOfI n = some s then
        let (c, σ1) := NodeI.copy n σ
        let (c', σ2) := c.cascadeMeta meta σ1
        (some c', σ2)
      else
        match n with
        | .comp .. =>
            match caidNodeI s n σ with
            | (some found, σ1) =>
                let (f', σ2) := found.cascadeMeta meta σ1
                (some f', σ2)
            | (none, σ1) => caidLoopI s meta rest σ1
        | .leaf _ => caidLoopI s meta rest σ
end

/-- The `Affordances.copyAffordanceById` operation with identity. -/
def NodeI.copyAffordanceById (n : NodeI) (idv : JsVal) (σ : St) : Option NodeI × St :=
  match n with
  | .comp _ _ m kids =>
      match idv with
      | .jstr s => caidLoopI s m kids σ
      | _ => (none, σ)
  | .leaf _ => (none, σ)

/-- Materialise a metadata address as the value a reader observes. -/
def eraseMeta (st : List (Nat × MetaFs)) : Option Nat → JsVal
  | none => .undefined
  | some a =>
      match storeGetL st a with
      | some fs => .jobj fs
      | none => .undefined

/-- Forget an `Affordance`'s identity. -/
def AffordanceI.erase (st : List (Nat × MetaFs)) (a : AffordanceI) : Affordance :=
  { _id := a._id, _method := a._method, _uri := a._uri
  , _relation := a._relation
  , _metadata := eraseMeta st a._metadata
  , _controls := a._controls.map (List.map InputI.val)
  , _messages := a._messages }

mutual
/-- Forget a tree's identity tags, materialising metadata from the
heap. -/
def NodeI.erase (st : List (Nat × MetaFs)) : NodeI → Node
  | .leaf a => .leaf (a.erase st)
  | .comp _ i m kids => .comp i (eraseMeta st m) (NodeI.eraseList st kids)

/-- Erasure over a member list. -/
def NodeI.eraseList (st : List (Nat × MetaFs)) : List NodeI → List Node
  | [] => []
  | n :: rest => NodeI.erase st n :: NodeI.eraseList st rest
end

mutual
/-- Every identity tag in a tree (nodes and inputs). -/
def NodeI.refs : NodeI → List Nat
  | .leaf a => a.ref :: (a._controls.getD []).map InputI.ref
  | .comp r _ _ kids => r :: NodeI.refsList kids

/-- Tags over a member list. -/
def NodeI.refsList : List NodeI → List Nat
  | [] => []
  | n :: rest => NodeI.refs n ++ NodeI.refsList rest
end

mutual
/-- Every metadata address a tree holds. -/
def NodeI.metaAddrs : NodeI → List Nat
  | .leaf a => a._metadata.toList
  | .comp _ _ m kids => m.toList ++ NodeI.metaAddrsList kids

/-- Metadata addresses over a member list. -/
def NodeI.metaAddrsList : List NodeI → List Nat
  | [] => []
  | n :: rest => NodeI.metaAddrs n ++ NodeI.metaAddrsList rest
end

/-- Nested-list induction principle for `NodeI`. -/
theorem NodeI.inductionOnI (P : NodeI → Prop)
    (hleaf : ∀ a, P (.leaf a))
    (hcomp : ∀ r i m kids, (∀ n ∈ kids, P n) → P (.comp r i m kids)) :
    ∀ n, P n := fun n =>
  match n with
  | .leaf a => hleaf a
  | .comp r i m kids => hcomp r i m kids (fun c hc =>
      have : sizeOf c < sizeOf (NodeI.comp r i m kids) := by
        have h1 := List.sizeOf_lt_of_mem hc
        simp only [NodeI.comp.sizeOf_spec]
        omega
      NodeI.inductionOnI P hleaf hcomp c)
termination_by n => sizeOf n


/-- The node-level copy property: erasure commutes with the pure copy
and every tag of the result is fresh. -/
def CopyNodeProp (n : NodeI) : Prop :=
  ∀ σ : St,
    NodeI.erase σ.store ((NodeI.copy n σ).1) = Node.copy (NodeI.erase σ.store n) ∧
    (∀ r ∈ NodeI.refs (NodeI.copy n σ).1, σ.next ≤ r ∧ r < (NodeI.copy n σ).2.next)

/-- The list-level copy property. -/
def CopyListProp (l : List NodeI) : Prop :=
  ∀ σ : St,
    NodeI.eraseList σ.store ((NodeI.copyList l σ).1)
      = Node.copyList (NodeI.eraseList σ.store l) ∧
    (∀ r ∈ NodeI.refsList (NodeI.copyList l σ).1,
      σ.next ≤ r ∧ r < (NodeI.copyList l σ).2.next)

end Ident

section Helpers

/-- The `setRelation` setter never touches the message table. -/
theorem Affordance.setRelation_messages (a : Affordance) (v : JsVal) :
    (a.setRelation v)._messages = a._messages := by
  unfold Affordance.setRelation; split <;> rfl

/-- The `setMetadata` setter never touches the message table. -/
theorem Affordance.setMetadata_messages (a : Affordance) (v : JsVal) :
    (a.setMetadata v)._messages = a._messages := by
  unfold Affordance.setMetadata; split <;> rfl

/-- What `copy` leaves in the message table. -/
theorem Affordance.copy_messages (a : Affordance) :
    a.copy._messages = [("*", .jarr [.jstr a._id])] := by
  unfold Affordance.copy
  have hbase : (((mkAffordance (.jstr a._id) (.jstr a._method) (.jstr a._uri)).setRelation
      a._relation).setMetadata a._metadata)._messages = [("*", .jarr [.jstr a._id])] := by
    rw [Affordance.setMetadata_messages, Affordance.setRelation_messages]; rfl
  split
  · exact hbase
  · exact hbase

end Helpers

/-- C10: copying an Affordance resets its message table to default. -/
theorem affordance_copy_resets_messages (a : Affordance) :
    a.copy._messages = [("*", .jarr [.jstr a._id])] :=
  Affordance.copy_messages a

/-- C9: round trip. -/
theorem inputRevive_roundtrip (id : String) (value : JsVal) (h : value ≠ .undefined) :
    inputRevive ((mkInput (.jstr id) value).toJSON) = some (mkInput (.jstr id) value) := by
  cases value
  case undefined => exact absurd rfl h
  all_goals rfl

theorem inputRevive_roundtrip_w :
    inputRevive ((mkInput (.jstr "x") (.jnum 5)).toJSON) = some (mkInput (.jstr "x") (.jnum 5)) :=
  inputRevive_roundtrip "x" (.jnum 5) (fun hh => nomatch hh)

/-- C8: setters silently reject invalid arguments. -/
theorem setters_reject_invalid :
    (∀ (i : Input) (v : JsVal), v.isStr = false → i.setId v = i) ∧
    (∀ (i : Input) (v : JsVal), v = .undefined → i.setValue v = i) ∧
    (∀ (i : Input) (v : JsVal), v.isNonEmptyArr = false → i.setAccept v = i) ∧
    (∀ (i : Input) (v : JsVal), v.isBool = false → i.setRequired v = i) ∧
    (∀ (i : Input) (v : JsVal), v.isStr = false → i.setLabel v = i) ∧
    (∀ (i : Input) (v : JsVal), v.isBool = false → i.setHidden v = i) ∧
    (∀ (i : Input) (v : JsVal), v.isBool = false → i.setReadonly v = i) ∧
    (∀ (i : Input) (v : JsVal), v.isNonEmptyArr = false → i.setValueOptions v = i) ∧
    (∀ (i : Input) (v : JsVal), v.isStr = false → i.setRegExp v = i) ∧
    (∀ (a : Affordance) (v : JsVal), v.isStr = false → a.setRelation v = a) ∧
    (∀ (a : Affordance) (v : JsVal), v.isObjLike = false → a.setMetadata v = a) ∧
    (∀ (n : Node) (v : JsVal), v.isStr = false → n.setId v = n) ∧
    (∀ (n : Node) (v : JsVal), v.isObjLike = false → n.setMetadata v = n) := by
  refine ⟨?_, ?_, ?_, ?_, ?_, ?_, ?_, ?_, ?_, ?_, ?_, ?_, ?_⟩
  · intro i v h; cases v <;> first | rfl | simp [JsVal.isStr] at h
  · intro i v h; subst h; rfl
  · intro i v h; simp [Input.setAccept, h]
  · intro i v h; simp [Input.setRequired, h]
  · intro i v h; simp [Input.setLabel, h]
  · intro i v h; simp [Input.setHidden, h]
  · intro i v h; simp [Input.setReadonly, h]
  · intro i v h; simp [Input.setValueOptions, h]
  · intro i v h; simp [Input.setRegExp, h]
  · intro a v h; simp [Affordance.setRelation, h]
  · intro a v h; simp [Affordance.setMetadata, h]
  · intro n v h; cases n <;> cases v <;> first | rfl | simp [JsVal.isStr] at h
  · intro n v h; cases n
    · rfl
    · simp [Node.setMetadata, h]

theorem setters_reject_invalid_w :
    ((mkInput (.jstr "x") (.jnum 1)).setId (.jnum 0) = mkInput (.jstr "x") (.jnum 1)) ∧
    ((mkInput (.jstr "x") (.jnum 1)).setValue .undefined = mkInput (.jstr "x") (.jnum 1)) ∧
    ((mkInput (.jstr "x") (.jnum 1)).setAccept (.jarr []) = mkInput (.jstr "x") (.jnum 1)) ∧
    ((mkInput (.jstr "x") (.jnum 1)).setRequired (.jstr "t") = mkInput (.jstr "x") (.jnum 1)) ∧
    ((mkInput (.jstr "x") (.jnum 1)).setLabel .jnull = mkInput (.jstr "x") (.jnum 1)) ∧
    ((mkInput (.jstr "x") (.jnum 1)).setHidden (.jnum 1) = mkInput (.jstr "x") (.jnum 1)) ∧
    ((mkInput (.jstr "x") (.jnum 1)).setReadonly .undefined = mkInput (.jstr "x") (.jnum 1)) ∧
    ((mkInput (.jstr "x") (.jnum 1)).setValueOptions (.jobj []) = mkInput (.jstr "x") (.jnum 1)) ∧
    ((mkInput (.jstr "x") (.jnum 1)).setRegExp (.jbool true) = mkInput (.jstr "x") (.jnum 1)) ∧
    ((mkAffordance (.jstr "a") (.jstr "GET") (.jstr "/a")).setRelation (.jnum 2)
      = mkAffordance (.jstr "a") (.jstr "GET") (.jstr "/a")) ∧
    ((mkAffordance (.jstr "a") (.jstr "GET") (.jstr "/a")).setMetadata .jnull
      = mkAffordance (.jstr "a") (.jstr "GET") (.jstr "/a")) ∧
    ((Node.comp none .undefined []).setId (.jbool false) = Node.comp none .undefined []) ∧
    ((Node.comp none .undefined []).setMetadata (.jstr "m") = Node.comp none .undefined []) :=
  ⟨setters_reject_invalid.1 _ _ rfl,
   setters_reject_invalid.2.1 _ _ rfl,
   setters_reject_invalid.2.2.1 _ _ rfl,
   setters_reject_invalid.2.2.2.1 _ _ rfl,
   setters_reject_invalid.2.2.2.2.1 _ _ rfl,
   setters_reject_invalid.2.2.2.2.2.1 _ _ rfl,
   setters_reject_invalid.2.2.2.2.2.2.1 _ _ rfl,
   setters_reject_invalid.2.2.2.2.2.2.2.1 _ _ rfl,
   setters_reject_invalid.2.2.2.2.2.2.2.2.1 _ _ rfl,
   setters_reject_invalid.2.2.2.2.2.2.2.2.2.1 _ _ rfl,
   setters_reject_invalid.2.2.2.2.2.2.2.2.2.2.1 _ _ rfl,
   setters_reject_invalid.2.2.2.2.2.2.2.2.2.2.2.1 _ _ rfl,
   setters_reject_invalid.2.2.2.2.2.2.2.2.2.2.2.2 _ _ rfl⟩

/-- Property write then read: reading the written key sees the new
value, any other key is untouched. -/
theorem lookupField_jsObjSet (fs : List (String × JsVal)) (k : String) (v : JsVal)
    (q : String) :
    lookupField (jsObjSet fs k v) q = if k = q then some v else lookupField fs q := by
  induction fs with
  | nil => simp [jsObjSet, lookupField]
  | cons p rest ih =>
      obtain ⟨k', v'⟩ := p
      by_cases hk : k' = k
      · subst hk
        by_cases hq : k' = q
        · subst hq; simp [jsObjSet, lookupField]
        · simp [jsObjSet, lookupField, hq, Ne.symm hq]
      · by_cases hq : k' = q
        · subst hq
          have : k ≠ k' := fun hh => hk hh.symm
          simp [jsObjSet, lookupField, hk, this]
        · simp [jsObjSet, lookupField, hk, hq, ih]

/-- C7: the message-table invariant. -/
theorem messages_star_invariant :
    (∀ id method uri : JsVal,
      (mkAffordance id method uri)._messages
        = [("*", .jarr [.jstr (mkAffordance id method uri)._id])]) ∧
    (∀ (a : Affordance) (r : String) (l : List JsVal),
      0 < l.length → l.all JsVal.isStr = true →
      a.addMessage (.jstr r) (.jarr l)
        = { a with _messages := jsObjSet a._messages r (.jarr l) }) ∧
    (∀ (a : Affordance) (resp msg : JsVal),
      (∀ r l, resp = .jstr r → msg = .jarr l → l = [] ∨ l.all JsVal.isStr = false) →
      a.addMessage resp msg = a) ∧
    (∀ (a : Affordance) (resp msg : JsVal),
      (lookupField a._messages "*").isSome = true →
      (lookupField (a.addMessage resp msg)._messages "*").isSome = true) ∧
    (∀ (a : Affordance) (v : JsVal), (a.setRelation v)._messages = a._messages) ∧
    (∀ (a : Affordance) (v : JsVal), (a.setMetadata v)._messages = a._messages) ∧
    (∀ (a : Affordance) (c : Input), (a.addInput c)._messages = a._messages) ∧
    (∀ (a : Affordance) (p : JsVal), (a.cascadeMetadata p)._messages = a._messages) ∧
    (∀ a : Affordance, lookupField a.copy._messages "*" = some (.jarr [.jstr a._id])) := by
  refine ⟨?_, ?_, ?_, ?_, ?_, ?_, ?_, ?_, ?_⟩
  · intro id method uri; cases id <;> rfl
  · intro a r l h1 h2; simp [Affordance.addMessage, h1, h2]
  · intro a resp msg h
    cases resp <;> cases msg <;> try rfl
    rename_i r l
    have hrl := h r l rfl rfl
    cases l with
    | nil => rfl
    | cons x xs =>
        rcases hrl with h1 | h2
        · exact absurd h1 (by simp)
        · simp [Affordance.addMessage, h2]
  · intro a resp msg h
    cases resp <;> cases msg <;> try exact h
    rename_i r l
    unfold Affordance.addMessage
    by_cases h1 : 0 < l.length
    · by_cases h2 : l.all JsVal.isStr = true
      · simp only [if_pos h1, if_pos h2, lookupField_jsObjSet]
        split <;> simp [h]
      · simp only [if_pos h1, if_neg h2]; exact h
    · simp only [if_neg h1]; exact h
  · intro a v; exact Affordance.setRelation_messages a v
  · intro a v; exact Affordance.setMetadata_messages a v
  · intro a c; rfl
  · intro a p; rfl
  · intro a
    rw [Affordance.copy_messages a]; rfl

theorem messages_star_invariant_w :
    ((mkAffordance (.jstr "a") (.jstr "GET") (.jstr "/a")).addMessage (.jstr "200")
        (.jarr [.jstr "ok"])
      = { mkAffordance (.jstr "a") (.jstr "GET") (.jstr "/a") with
          _messages := jsObjSet (mkAffordance (.jstr "a") (.jstr "GET") (.jstr "/a"))._messages
            "200" (.jarr [.jstr "ok"]) }) ∧
    ((mkAffordance (.jstr "a") (.jstr "GET") (.jstr "/a")).addMessage (.jstr "200")
        (.jarr [.jnum 3])
      = mkAffordance (.jstr "a") (.jstr "GET") (.jstr "/a")) ∧
    (lookupField ((mkAffordance (.jstr "a") (.jstr "GET") (.jstr "/a")).addMessage
        (.jbool true) .jnull)._messages "*").isSome = true :=
  ⟨messages_star_invariant.2.1 _ "200" [.jstr "ok"] (by decide) rfl,
   messages_star_invariant.2.2.1 _ _ _
     (fun r l _ hl => by injection hl with h; subst h; exact Or.inr rfl),
   messages_star_invariant.2.2.2.1 _ _ _ rfl⟩

/-- Nested-list induction principle for member lists. -/
theorem Node.listInductionOn (P : List Node → Prop)
    (hnil : P [])
    (hleaf : ∀ a rest, P rest → P (.leaf a :: rest))
    (hcomp : ∀ i m kids rest, P kids → P rest → P (.comp i m kids :: rest)) :
    ∀ l, P l := fun l =>
  match l with
  | [] => hnil
  | .leaf a :: rest => hleaf a rest (Node.listInductionOn P hnil hleaf hcomp rest)
  | .comp i m kids :: rest =>
      hcomp i m kids rest
        (have : sizeOf kids < sizeOf (Node.comp i m kids :: rest) := by
          simp [Node.comp.sizeOf_spec]; omega
         Node.listInductionOn P hnil hleaf hcomp kids)
        (Node.listInductionOn P hnil hleaf hcomp rest)
termination_by l => sizeOf l

/-- The search loop finds exactly the ids present in members at any
depth. -/
theorem hasIdLoop_eq_containsIdList (s : String) :
    ∀ kids, hasIdLoop s kids = containsIdList s kids := by
  intro kids
  induction kids using Node.listInductionOn with
  | hnil => rfl
  | hleaf a rest ih =>
      simp only [hasIdLoop, containsIdList, containsId, nodeIdOf, ih]
      by_cases h : a._id = s <;> simp [h]
  | hcomp i m kids rest ihk ihr =>
      simp only [hasIdLoop, containsIdList, containsId, nodeIdOf, hasIdNode, ihk, ihr]
      by_cases h : i = some s <;>
        by_cases h2 : containsIdList s kids = true <;> simp [h, h2]

/-- C3 amended: found iff a member (not the root itself) carries the id. -/
theorem hasAffordanceWithId_found_iff (i : Option String) (m : JsVal)
    (kids : List Node) (idv : JsVal) :
    (Node.comp i m kids).hasAffordanceWithId idv = true ↔
      ∃ s, idv = .jstr s ∧ containsIdList s kids = true := by
  cases idv <;> simp [Node.hasAffordanceWithId, hasIdLoop_eq_containsIdList]

/-- C3 counterexample: the root's own id is never consulted. -/
theorem hasAffordanceWithId_root_counterexample :
    ¬((Node.comp (some "X") .undefined []).hasAffordanceWithId (.jstr "X") = true ↔
      containsId "X" (Node.comp (some "X") .undefined []) = true) := by
  intro h
  exact absurd (h.mpr rfl) (by simp [Node.hasAffordanceWithId, hasIdLoop])

/-- C5: the reviver classifies an Affordance-shaped object as an
Affordance via `affordance.revive`, never as an Affordances. -/
theorem reviver_prefers_affordance (v : RVal) (h : affordanceCanRevive v = true) :
    navalJsonReviver v = affordanceReviveR v ∧
    (navalJsonReviver v).isAffInstance = true ∧
    (navalJsonReviver v).isAffsInstance = false := by
  have hobj : v.isObjectR = true := by
    unfold affordanceCanRevive at h
    exact (Bool.and_eq_true_iff.mp ((Bool.and_eq_true_iff.mp
      ((Bool.and_eq_true_iff.mp h).1)).1)).1
  have hrev : navalJsonReviver v = affordanceReviveR v := by
    unfold navalJsonReviver
    rw [hobj, if_pos rfl, if_pos h]
  refine ⟨hrev, ?_, ?_⟩ <;> rw [hrev] <;> unfold affordanceReviveR <;> rw [if_pos h] <;> rfl

theorem reviver_prefers_affordance_w :
    affordancesCanRevive (.robj [("_id", .rstr "x"), ("_method", .rstr "GET"),
        ("_uri", .rstr "/x"), ("_affordances", .rarr [])]) = true ∧
    (navalJsonReviver (.robj [("_id", .rstr "x"), ("_method", .rstr "GET"),
        ("_uri", .rstr "/x"), ("_affordances", .rarr [])])
      = affordanceReviveR (.robj [("_id", .rstr "x"), ("_method", .rstr "GET"),
        ("_uri", .rstr "/x"), ("_affordances", .rarr [])]) ∧
     (navalJsonReviver (.robj [("_id", .rstr "x"), ("_method", .rstr "GET"),
        ("_uri", .rstr "/x"), ("_affordances", .rarr [])])).isAffInstance = true ∧
     (navalJsonReviver (.robj [("_id", .rstr "x"), ("_method", .rstr "GET"),
        ("_uri", .rstr "/x"), ("_affordances", .rarr [])])).isAffsInstance = false) :=
  ⟨rfl, reviver_prefers_affordance _ rfl⟩

/-- C6: the decode delegate returns null on parse failure and on
structurally unrecognized documents; only instances ever escape. -/
theorem shouldDecodeDelegate_total :
    shouldDecodeDelegate none = none ∧
    (∀ p : RVal, (reviveWalk p).isAffInstance = false →
      (reviveWalk p).isAffsInstance = false →
      shouldDecodeDelegate (some p) = none) ∧
    (∀ (parsed : Option RVal) (v : RVal), shouldDecodeDelegate parsed = some v →
      v.isAffInstance = true ∨ v.isAffsInstance = true) := by
  refine ⟨rfl, ?_, ?_⟩
  · intro p h1 h2
    simp [shouldDecodeDelegate, h1, h2]
  · intro parsed v h
    cases parsed with
    | none => exact absurd h (by simp [shouldDecodeDelegate])
    | some p =>
        by_cases hi : ((reviveWalk p).isAffInstance || (reviveWalk p).isAffsInstance) = true
        · have hsd : shouldDecodeDelegate (some p) = some (reviveWalk p) := by
            simp only [shouldDecodeDelegate]
            rw [if_pos hi]
          rw [hsd] at h
          cases h
          exact Bool.or_eq_true_iff.mp hi
        · have hsd : shouldDecodeDelegate (some p) = none := by
            simp only [shouldDecodeDelegate]
            rw [if_neg hi]
          rw [hsd] at h
          exact absurd h (by simp)

theorem shouldDecodeDelegate_total_w :
    shouldDecodeDelegate (some (.rstr "x")) = none :=
  shouldDecodeDelegate_total.2.1 (.rstr "x") rfl rfl

/-- Folding property writes over entries: the written key wins with its
last value, other keys fall through. -/
theorem lookupField_foldl_jsObjSet (k : String) :
    ∀ (es : List (String × JsVal)) (fs : List (String × JsVal)),
    lookupField (List.foldl (fun m kv => jsObjSet m kv.1 kv.2) fs es) k
      = match assocLast es k with
        | some w => some w
        | none => lookupField fs k := by
  intro es
  induction es with
  | nil => intro fs; rfl
  | cons p rest ih =>
      intro fs
      obtain ⟨k', v⟩ := p
      simp only [List.foldl_cons, ih, assocLast, lookupField_jsObjSet]
      cases assocLast rest k with
      | some w => rfl
      | none =>
          by_cases h : k' = k
          · simp [h]
          · simp [h]

/-- A key absent from the entries is absent from the last-occurrence
lookup. -/
theorem assocLast_eq_none_of_not_mem (k : String) :
    ∀ es : List (String × JsVal), k ∉ es.map Prod.fst → assocLast es k = none := by
  intro es
  induction es with
  | nil => intro _; rfl
  | cons p rest ih =>
      intro h
      obtain ⟨k', v⟩ := p
      simp only [List.map_cons, List.mem_cons] at h
      push_neg at h
      simp only [assocLast, ih h.2]
      rw [if_neg (Ne.symm h.1)]

/-- Without duplicate keys, last- and first-occurrence lookup agree. -/
theorem assocLast_eq_lookupField (k : String) :
    ∀ es : List (String × JsVal), (es.map Prod.fst).Nodup →
    assocLast es k = lookupField es k := by
  intro es
  induction es with
  | nil => intro _; rfl
  | cons p rest ih =>
      intro hnd
      obtain ⟨k', v⟩ := p
      simp only [List.map_cons, List.nodup_cons] at hnd
      obtain ⟨hk', hrest⟩ := hnd
      simp only [assocLast, lookupField, ih hrest]
      by_cases h : k' = k
      · subst h
        have hnone : lookupField rest k' = none := by
          rw [← ih hrest]
          exact assocLast_eq_none_of_not_mem k' rest hk'
        rw [hnone]
      · simp only [if_neg h]
        cases hl : lookupField rest k <;> rfl

/-- Keys after a property write: unchanged if present, appended if new. -/
theorem jsObjSet_keys (k : String) (v : JsVal) :
    ∀ fs : List (String × JsVal),
    (jsObjSet fs k v).map Prod.fst
      = if k ∈ fs.map Prod.fst then fs.map Prod.fst else fs.map Prod.fst ++ [k] := by
  intro fs
  induction fs with
  | nil => simp [jsObjSet]
  | cons p rest ih =>
      obtain ⟨k', v'⟩ := p
      by_cases h : k' = k
      · subst h; simp [jsObjSet]
      · simp only [jsObjSet, if_neg h, List.map_cons, ih]
        by_cases hm : k ∈ rest.map Prod.fst
        · rw [if_pos hm, if_pos (List.mem_cons.mpr (Or.inr hm))]
        · rw [if_neg hm, if_neg (by
            intro hc
            rcases List.mem_cons.mp hc with hc | hc
            · exact h hc.symm
            · exact hm hc)]
          simp

/-- Property writes keep the keys duplicate-free. -/
theorem nodup_jsObjSet (k : String) (v : JsVal) (fs : List (String × JsVal))
    (h : (fs.map Prod.fst).Nodup) : ((jsObjSet fs k v).map Prod.fst).Nodup := by
  rw [jsObjSet_keys]
  split
  · exact h
  · rename_i hnm
    simp [List.nodup_append, h, hnm]

/-- Folded property writes keep the keys duplicate-free. -/
theorem nodup_foldl_jsObjSet :
    ∀ (es fs : List (String × JsVal)), (fs.map Prod.fst).Nodup →
    ((List.foldl (fun m kv => jsObjSet m kv.1 kv.2) fs es).map Prod.fst).Nodup := by
  intro es
  induction es with
  | nil => intro fs h; exact h
  | cons p rest ih =>
      intro fs h
      exact ih _ (nodup_jsObjSet p.1 p.2 fs h)

/-- The merged-metadata value is always well-formed. -/
theorem wfMetaVal_cascade (c p : JsVal) : wfMetaVal (cascadeMergedVal c p) = true := by
  unfold cascadeMergedVal
  split
  · simp only [wfMetaVal, decide_eq_true_eq]
    exact nodup_foldl_jsObjSet _ _ (nodup_foldl_jsObjSet _ [] (by simp))
  · rfl

/-- Inversion of metadata well-formedness. -/
theorem wfMetaVal_cases (v : JsVal) (h : wfMetaVal v = true) :
    v = .undefined ∨ ∃ fs, v = .jobj fs ∧ (fs.map Prod.fst).Nodup := by
  cases v with
  | undefined => exact Or.inl rfl
  | jobj fs => exact Or.inr ⟨fs, rfl, by simpa [wfMetaVal] using h⟩
  | jnull => simp [wfMetaVal] at h
  | jbool b => simp [wfMetaVal] at h
  | jnum n => simp [wfMetaVal] at h
  | jstr s => simp [wfMetaVal] at h
  | jarr xs => simp [wfMetaVal] at h

theorem metaGet_cascade (c p : JsVal) (hwc : wfMetaVal c = true)
    (hwp : wfMetaVal p = true) (k : String) :
    metaGet (cascadeMergedVal c p) k
      = match metaGet c k with
        | some w => some w
        | none => metaGet p k := by
  rcases wfMetaVal_cases c hwc with rfl | hcc <;>
    rcases wfMetaVal_cases p hwp with rfl | hpp
  · rfl
  · obtain ⟨pfs, rfl, hp⟩ := hpp
    have hm : cascadeMergedVal JsVal.undefined (JsVal.jobj pfs)
        = .jobj (List.foldl (fun m kv => jsObjSet m kv.1 kv.2) [] pfs) := by
      simp [cascadeMergedVal, JsVal.isObjLike, ownEntries]
    rw [hm]
    simp only [metaGet, lookupField_foldl_jsObjSet, assocLast_eq_lookupField k pfs hp]
    cases lookupField pfs k <;> rfl
  · obtain ⟨cfs, rfl, hc⟩ := hcc
    have hm : cascadeMergedVal (JsVal.jobj cfs) JsVal.undefined
        = .jobj (List.foldl (fun m kv => jsObjSet m kv.1 kv.2) [] cfs) := by
      simp [cascadeMergedVal, JsVal.isObjLike, ownEntries]
    rw [hm]
    simp only [metaGet, lookupField_foldl_jsObjSet, assocLast_eq_lookupField k cfs hc]
    cases lookupField cfs k <;> rfl
  · obtain ⟨cfs, rfl, hc⟩ := hcc
    obtain ⟨pfs, rfl, hp⟩ := hpp
    have hm : cascadeMergedVal (JsVal.jobj cfs) (JsVal.jobj pfs)
        = .jobj (List.foldl (fun m kv => jsObjSet m kv.1 kv.2)
            (List.foldl (fun m kv => jsObjSet m kv.1 kv.2) [] pfs) cfs) := by
      simp [cascadeMergedVal, JsVal.isObjLike, ownEntries]
    rw [hm]
    simp only [metaGet, lookupField_foldl_jsObjSet, assocLast_eq_lookupField k cfs hc,
      assocLast_eq_lookupField k pfs hp]
    cases lookupField cfs k <;> cases lookupField pfs k <;> rfl

/-- Applying `cascadeMetadata` rewrites exactly the metadata field. -/
theorem Node.getMetadata_cascadeMetadata (n : Node) (m : JsVal) :
    (n.cascadeMetadata m).getMetadata = cascadeMergedVal n.getMetadata m := by
  cases n <;> rfl

/-- The metadata of an iterated cascade is the iterated merge. -/
theorem getMetadata_foldl_cascade :
    ∀ (ms : List JsVal) (n : Node),
    (List.foldl Node.cascadeMetadata n ms).getMetadata
      = List.foldl cascadeMergedVal n.getMetadata ms := by
  intro ms
  induction ms with
  | nil => intro n; rfl
  | cons m rest ih =>
      intro n
      simp only [List.foldl_cons, ih, Node.getMetadata_cascadeMetadata]

/-- Key lookup through an iterated merge is first-defined-wins along
the precedence chain. -/
theorem metaGet_foldl_cascade :
    ∀ (ms : List JsVal) (m0 : JsVal), wfMetaVal m0 = true →
    (∀ m ∈ ms, wfMetaVal m = true) → ∀ k,
    metaGet (List.foldl cascadeMergedVal m0 ms) k
      = firstSome (metaGet m0 k :: ms.map (fun mm => metaGet mm k)) := by
  intro ms
  induction ms with
  | nil =>
      intro m0 _ _ k
      cases hA : metaGet m0 k <;> simp [firstSome, hA]
  | cons m rest ih =>
      intro m0 hw0 hws k
      have hwm : wfMetaVal m = true := hws m (List.mem_cons_self m rest)
      have hrest : ∀ x ∈ rest, wfMetaVal x = true :=
        fun x hx => hws x (List.mem_cons_of_mem m hx)
      simp only [List.foldl_cons, List.map_cons]
      rw [ih (cascadeMergedVal m0 m) (wfMetaVal_cascade m0 m) hrest k,
        metaGet_cascade m0 m hw0 hwm k]
      cases hA : metaGet m0 k <;> simp [firstSome]

/-- What `copy` leaves in the metadata field. -/
theorem Affordance.copy_metadata (a : Affordance) :
    a.copy._metadata = if a._metadata.isObjLike then a._metadata else .undefined := by
  unfold Affordance.copy
  have hbase : (((mkAffordance (.jstr a._id) (.jstr a._method) (.jstr a._uri)).setRelation
      a._relation).setMetadata a._metadata)._metadata
        = if a._metadata.isObjLike then a._metadata else .undefined := by
    unfold Affordance.setMetadata Affordance.setRelation
    split
    · split <;> rfl
    · split <;> rfl
  split
  · exact hbase
  · exact hbase

/-- A well-formed node's copy keeps its metadata value. -/
theorem Node.getMetadata_copy (n : Node) (h : wfMetaVal n.getMetadata = true) :
    (Node.copy n).getMetadata = n.getMetadata := by
  cases n with
  | leaf a =>
      show a.copy._metadata = a._metadata
      rw [Affordance.copy_metadata]
      rcases wfMetaVal_cases _ h with hu | ⟨fs, ho, _⟩
      · simp only [Node.getMetadata] at hu
        rw [hu]; rfl
      · simp only [Node.getMetadata] at ho
        rw [ho]; rfl
  | comp i m kids =>
      show (if m.isObjLike then m else .undefined) = m
      rcases wfMetaVal_cases _ h with hu | ⟨fs, ho, _⟩
      · simp only [Node.getMetadata] at hu
        rw [hu]; rfl
      · simp only [Node.getMetadata] at ho
        rw [ho]; rfl

/-- The copy-out search equals the spec-side search followed by a chain
of cascades over the recorded ancestors and the current level. -/
theorem caidLoop_eq_dfsFind (s : String) :
    ∀ kids : List Node, ∀ meta : JsVal,
    caidLoop s meta kids
      = (dfsFind s kids).map
          (fun p => List.foldl Node.cascadeMetadata (Node.copy p.1) (p.2 ++ [meta])) := by
  intro kids
  induction kids using Node.listInductionOn with
  | hnil => intro meta; rfl
  | hleaf a rest ih =>
      intro meta
      by_cases h : a._id = s
      · simp [caidLoop, dfsFind, nodeIdOf, h]
      · simp [caidLoop, dfsFind, nodeIdOf, h, ih]
  | hcomp i m kids rest ihk ihr =>
      intro meta
      by_cases h : i = some s
      · simp [caidLoop, dfsFind, nodeIdOf, h]
      · simp only [caidLoop, dfsFind, nodeIdOf, h, if_neg, caidNode,
          dfsFindNode, ihk m, ihr meta]
        cases hd : dfsFind s kids with
        | none => simp [hd, ihr meta]
        | some p =>
            obtain ⟨f, anc⟩ := p
            simp [hd, List.foldl_concat]

/-- A well-formed node has well-formed metadata. -/
theorem Node.WF_getMetadata (n : Node) (h : Node.WF n = true) :
    wfMetaVal n.getMetadata = true := by
  cases n with
  | leaf a =>
      simp only [Node.WF, Affordance.WF, Bool.and_eq_true] at h
      exact h.1.2
  | comp i m kids =>
      simp only [Node.WF, Bool.and_eq_true] at h
      exact h.1

/-- The spec-side search only surfaces well-formed matches and
well-formed ancestor metadata. -/
theorem dfsFind_wf (s : String) :
    ∀ kids : List Node, Node.WFList kids = true →
    ∀ f anc, dfsFind s kids = some (f, anc) →
    Node.WF f = true ∧ ∀ m ∈ anc, wfMetaVal m = true := by
  intro kids
  induction kids using Node.listInductionOn with
  | hnil => intro _ f anc h; exact absurd h (by simp [dfsFind])
  | hleaf a rest ih =>
      intro hwf f anc h
      simp only [Node.WFList, Bool.and_eq_true] at hwf
      by_cases hid : a._id = s
      · simp only [dfsFind, nodeIdOf, hid, if_pos, Option.some_inj, Prod.mk.injEq] at h
        obtain ⟨rfl, rfl⟩ := h
        exact ⟨hwf.1, by simp⟩
      · simp only [dfsFind, nodeIdOf, hid] at h
        rw [if_neg (by simpa using hid)] at h
        exact ih hwf.2 f anc h
  | hcomp i m kids rest ihk ihr =>
      intro hwf f anc h
      simp only [Node.WFList, Node.WF, Bool.and_eq_true] at hwf
      by_cases hid : i = some s
      · simp only [dfsFind, nodeIdOf, hid, if_pos, Option.some_inj, Prod.mk.injEq] at h
        obtain ⟨rfl, rfl⟩ := h
        refine ⟨?_, by simp⟩
        simp [Node.WF, Bool.and_eq_true, hwf.1.1, hwf.1.2]
      · simp only [dfsFind, nodeIdOf] at h
        rw [if_neg hid] at h
        simp only [dfsFindNode] at h
        cases hd : dfsFind s kids with
        | none =>
            rw [hd] at h
            exact ihr hwf.2 f anc h
        | some p =>
            obtain ⟨g, anc0⟩ := p
            rw [hd] at h
            simp only [Option.some_inj, Prod.mk.injEq] at h
            obtain ⟨rfl, rfl⟩ := h
            obtain ⟨hg, hanc⟩ := ihk hwf.1.2 g anc0 hd
            refine ⟨hg, ?_⟩
            intro x hx
            rcases List.mem_append.mp hx with hx | hx
            · exact hanc x hx
            · rcases List.mem_singleton.mp hx with rfl
              exact hwf.1.1

/-- C1: `copyAffordanceById` returns the match's copy with metadata
cascaded from every ancestor composite, nearer ancestors and the node
itself taking precedence. -/
theorem copyAffordanceById_cascades_ancestors
    (i : Option String) (m : JsVal) (kids : List Node) (s : String) (f : Node)
    (anc : List JsVal)
    (hwf : Node.WF (.comp i m kids) = true)
    (hfind : dfsFind s kids = some (f, anc)) :
    ∃ res, (Node.comp i m kids).copyAffordanceById (.jstr s) = some res ∧
      res = List.foldl Node.cascadeMetadata (Node.copy f) (anc ++ [m]) ∧
      ∀ k, metaGet res.getMetadata k
        = firstSome (metaGet f.getMetadata k
            :: (anc ++ [m]).map (fun mm => metaGet mm k)) := by
  have hw : wfMetaVal m = true ∧ Node.WFList kids = true := by
    simpa [Node.WF, Bool.and_eq_true] using hwf
  obtain ⟨hwff, hwanc⟩ := dfsFind_wf s kids hw.2 f anc hfind
  have hres : (Node.comp i m kids).copyAffordanceById (.jstr s)
      = some (List.foldl Node.cascadeMetadata (Node.copy f) (anc ++ [m])) := by
    show caidLoop s m kids = _
    rw [caidLoop_eq_dfsFind s kids m, hfind]
    rfl
  refine ⟨_, hres, rfl, ?_⟩
  intro k
  rw [getMetadata_foldl_cascade]
  have hwfm : wfMetaVal f.getMetadata = true := Node.WF_getMetadata f hwff
  rw [Node.getMetadata_copy f hwfm]
  exact metaGet_foldl_cascade (anc ++ [m]) _ hwfm
    (fun x hx => by
      rcases List.mem_append.mp hx with hx | hx
      · exact hwanc x hx
      · rcases List.mem_singleton.mp hx with rfl
        exact hw.1) k

theorem copyAffordanceById_cascades_ancestors_w :
    ((Node.comp none (.jobj [("a", .jnum 1)])
        [.comp (some "C") (.jobj [("a", .jnum 2), ("b", .jnum 2)])
          [.leaf { mkAffordance (.jstr "L") (.jstr "GET") (.jstr "/l") with
            _metadata := .jobj [("b", .jnum 3)] }]]).copyAffordanceById
      (.jstr "L")).map Node.getMetadata
      = some (.jobj [("a", .jnum 2), ("b", .jnum 3)]) ∧
    (∃ res, (Node.comp none (.jobj [("a", .jnum 1)])
        [.comp (some "C") (.jobj [("a", .jnum 2), ("b", .jnum 2)])
          [.leaf { mkAffordance (.jstr "L") (.jstr "GET") (.jstr "/l") with
            _metadata := .jobj [("b", .jnum 3)] }]]).copyAffordanceById
      (.jstr "L") = some res ∧
      res = List.foldl Node.cascadeMetadata
        (Node.copy (.leaf { mkAffordance (.jstr "L") (.jstr "GET") (.jstr "/l") with
          _metadata := .jobj [("b", .jnum 3)] }))
        ([.jobj [("a", .jnum 2), ("b", .jnum 2)]] ++ [.jobj [("a", .jnum 1)]]) ∧
      ∀ k, metaGet res.getMetadata k
        = firstSome (metaGet (Node.getMetadata (.leaf { mkAffordance (.jstr "L")
              (.jstr "GET") (.jstr "/l") with _metadata := .jobj [("b", .jnum 3)] })) k
            :: (([.jobj [("a", .jnum 2), ("b", .jnum 2)]] ++ [.jobj [("a", .jnum 1)]]
                  : List JsVal)).map
              (fun mm => metaGet mm k))) :=
  ⟨rfl,
   copyAffordanceById_cascades_ancestors none (.jobj [("a", .jnum 1)])
     [.comp (some "C") (.jobj [("a", .jnum 2), ("b", .jnum 2)])
       [.leaf { mkAffordance (.jstr "L") (.jstr "GET") (.jstr "/l") with
         _metadata := .jobj [("b", .jnum 3)] }]] "L"
     (.leaf { mkAffordance (.jstr "L") (.jstr "GET") (.jstr "/l") with
       _metadata := .jobj [("b", .jnum 3)] })
     [.jobj [("a", .jnum 2), ("b", .jnum 2)]] rfl rfl⟩

namespace Ident

/-- Store extension: the counter grows and every readable cell keeps
its contents. -/
def Ext (σ σ' : St) : Prop :=
  σ.next ≤ σ'.next ∧ ∀ a fs, storeGet σ a = some fs → storeGet σ' a = some fs

theorem Ext.rfl' (σ : St) : Ext σ σ := ⟨Nat.le_refl _, fun _ _ h => h⟩

theorem Ext.trans' {σ1 σ2 σ3 : St} (h1 : Ext σ1 σ2) (h2 : Ext σ2 σ3) : Ext σ1 σ3 :=
  ⟨Nat.le_trans h1.1 h2.1, fun a fs h => h2.2 a fs (h1.2 a fs h)⟩

/-- A successful heap read exhibits a stored entry. -/
theorem storeGetL_mem {st : List (Nat × MetaFs)} {a : Nat} {fs : MetaFs}
    (h : storeGetL st a = some fs) : (a, fs) ∈ st := by
  induction st with
  | nil => exact absurd h (by simp [storeGetL])
  | cons p rest ih =>
      obtain ⟨a', fs'⟩ := p
      by_cases ha : a' = a
      · subst ha
        simp only [storeGetL, if_pos] at h
        cases h
        exact List.mem_cons_self _ _
      · simp only [storeGetL, if_neg ha] at h
        exact List.mem_cons_of_mem _ (ih h)

/-- Allocating a metadata object extends the store. -/
theorem allocMeta_ext (σ : St) (fs : MetaFs) (hw : WSt σ) :
    Ext σ (allocMeta σ fs).2 ∧ WSt (allocMeta σ fs).2 ∧
    (allocMeta σ fs).1 = σ.next ∧ (allocMeta σ fs).2.next = σ.next + 1 := by
  refine ⟨⟨Nat.le_succ _, ?_⟩, ?_, rfl, rfl⟩
  · intro a fs0 h
    have hm := storeGetL_mem h
    have ha : a < σ.next := hw (a, fs0) hm
    show storeGetL ((σ.next, fs) :: σ.store) a = some fs0
    simp only [storeGetL, if_neg (Nat.ne_of_gt ha)]
    exact h
  · intro p hp
    rcases List.mem_cons.mp hp with rfl | hp
    · exact Nat.lt_succ_self _
    · exact Nat.lt_succ_of_lt (hw p hp)

/-- Drawing a node tag extends the store trivially. -/
theorem allocRef_ext (σ : St) :
    Ext σ (allocRef σ).2 ∧ (WSt σ → WSt (allocRef σ).2) ∧
    (allocRef σ).1 = σ.next ∧ (allocRef σ).2.next = σ.next + 1 ∧
    (allocRef σ).2.store = σ.store :=
  ⟨⟨Nat.le_succ _, fun _ _ h => h⟩,
   fun hw p hp => Nat.lt_succ_of_lt (hw p hp), rfl, rfl, rfl⟩

/-- The merge allocates a fresh cell (or stays silent): existing cells
are untouched and any returned address is fresh. -/
theorem cascadeMetaI_spec (c p : Option Nat) (σ : St) (hw : WSt σ) :
    Ext σ (cascadeMetaI c p σ).2 ∧ WSt (cascadeMetaI c p σ).2 ∧
    ((cascadeMetaI c p σ).1 = none ∨
      ∃ a, (cascadeMetaI c p σ).1 = some a ∧ σ.next ≤ a) := by
  unfold cascadeMetaI
  split
  · refine ⟨(allocMeta_ext σ _ hw).1, (allocMeta_ext σ _ hw).2.1, Or.inr ⟨σ.next, rfl, Nat.le_refl _⟩⟩
  · exact ⟨Ext.rfl' σ, hw, Or.inl rfl⟩

end Ident

namespace Ident

/-- Nested-list induction principle for `NodeI` member lists. -/
theorem NodeI.listInductionOnI (P : List NodeI → Prop)
    (hnil : P [])
    (hleaf : ∀ a rest, P rest → P (.leaf a :: rest))
    (hcomp : ∀ r i m kids rest, P kids → P rest → P (.comp r i m kids :: rest)) :
    ∀ l, P l := fun l =>
  match l with
  | [] => hnil
  | .leaf a :: rest => hleaf a rest (NodeI.listInductionOnI P hnil hleaf hcomp rest)
  | .comp r i m kids :: rest =>
      hcomp r i m kids rest
        (have : sizeOf kids < sizeOf (NodeI.comp r i m kids :: rest) := by
          simp [NodeI.comp.sizeOf_spec]; omega
         NodeI.listInductionOnI P hnil hleaf hcomp kids)
        (NodeI.listInductionOnI P hnil hleaf hcomp rest)
termination_by l => sizeOf l

/-- Copying inputs only draws tags. -/
theorem copyInputs_st : ∀ (l : List InputI) (σ : St),
    (copyInputs l σ).2.store = σ.store ∧ σ.next ≤ (copyInputs l σ).2.next := by
  intro l
  induction l with
  | nil => intro σ; exact ⟨rfl, Nat.le_refl _⟩
  | cons i rest ih =>
      intro σ
      simp only [copyInputs, InputI.copy]
      obtain ⟨h1, h2⟩ := ih (allocRef σ).2
      exact ⟨h1, Nat.le_trans (Nat.le_succ _) h2⟩

/-- Copying an affordance only draws tags. -/
theorem AffordanceI.affCopyI_st (a : AffordanceI) (σ : St) :
    (a.copy σ).2.store = σ.store ∧ σ.next ≤ (a.copy σ).2.next := by
  cases hc : a._controls with
  | none =>
      simp only [AffordanceI.copy, hc]
      exact ⟨rfl, Nat.le_succ _⟩
  | some l =>
      cases l with
      | nil =>
          simp only [AffordanceI.copy, hc]
          exact ⟨rfl, Nat.le_succ _⟩
      | cons c cs =>
          simp only [AffordanceI.copy, hc]
          obtain ⟨h1, h2⟩ := copyInputs_st (c :: cs) (allocRef σ).2
          exact ⟨h1, Nat.le_trans (Nat.le_succ _) h2⟩

/-- Copying a tree only draws tags: the store is untouched and the
counter grows. -/
theorem NodeI.copyI_st : ∀ n : NodeI, ∀ σ : St,
    (NodeI.copy n σ).2.store = σ.store ∧ σ.next ≤ (NodeI.copy n σ).2.next := by
  have main : ∀ l : List NodeI, (∀ σ : St,
      (NodeI.copyList l σ).2.store = σ.store ∧ σ.next ≤ (NodeI.copyList l σ).2.next) ∧
      (∀ n ∈ l, ∀ σ : St,
        (NodeI.copy n σ).2.store = σ.store ∧ σ.next ≤ (NodeI.copy n σ).2.next) := by
    intro l
    induction l using NodeI.listInductionOnI with
    | hnil => exact ⟨fun σ => ⟨rfl, Nat.le_refl _⟩, by simp⟩
    | hleaf a rest ih =>
        have hl : ∀ σ : St, (NodeI.copy (.leaf a) σ).2.store = σ.store ∧
            σ.next ≤ (NodeI.copy (.leaf a) σ).2.next := by
          intro σ
          simp only [NodeI.copy]
          exact AffordanceI.affCopyI_st a σ
        refine ⟨?_, ?_⟩
        · intro σ
          simp only [NodeI.copyList]
          obtain ⟨h1, h2⟩ := hl σ
          obtain ⟨h3, h4⟩ := (ih.1) (NodeI.copy (.leaf a) σ).2
          exact ⟨by rw [h3, h1], Nat.le_trans h2 h4⟩
        · intro n hn σ
          rcases List.mem_cons.mp hn with rfl | hn
          · exact hl σ
          · exact ih.2 n hn σ
    | hcomp r i m kids rest ihk ihr =>
        have hc : ∀ σ : St, (NodeI.copy (.comp r i m kids) σ).2.store = σ.store ∧
            σ.next ≤ (NodeI.copy (.comp r i m kids) σ).2.next := by
          intro σ
          simp only [NodeI.copy]
          obtain ⟨h1, h2⟩ := ihk.1 (allocRef σ).2
          exact ⟨h1, Nat.le_trans (Nat.le_succ _) h2⟩
        refine ⟨?_, ?_⟩
        · intro σ
          simp only [NodeI.copyList]
          obtain ⟨h1, h2⟩ := hc σ
          obtain ⟨h3, h4⟩ := ihr.1 (NodeI.copy (.comp r i m kids) σ).2
          exact ⟨by rw [h3, h1], Nat.le_trans h2 h4⟩
        · intro n hn σ
          rcases List.mem_cons.mp hn with rfl | hn
          · exact hc σ
          · exact ihr.2 n hn σ
  intro n σ
  cases n with
  | leaf a => simpa only [NodeI.copy] using AffordanceI.affCopyI_st a σ
  | comp r i m kids =>
      simp only [NodeI.copy]
      obtain ⟨h1, h2⟩ := (main kids).1 (allocRef σ).2
      exact ⟨h1, Nat.le_trans (Nat.le_succ _) h2⟩

end Ident

namespace Ident

/-- A store-preserving counter bump keeps well-formedness. -/
theorem WSt_mono {σ σ' : St} (hw : WSt σ) (hst : σ'.store = σ.store)
    (hn : σ.next ≤ σ'.next) : WSt σ' := by
  intro p hp
  rw [hst] at hp
  exact Nat.lt_of_lt_of_le (hw p hp) hn

/-- Store-equal states extend each other. -/
theorem Ext_of_store_eq {σ σ' : St} (hst : σ'.store = σ.store)
    (hn : σ.next ≤ σ'.next) : Ext σ σ' := by
  refine ⟨hn, ?_⟩
  intro a fs h
  show storeGetL σ'.store a = some fs
  rw [hst]
  exact h

/-- Cascading onto a node allocates at most a fresh cell and leaves the
node's new metadata fresh or absent. -/
theorem NodeI.cascadeMeta_spec (n : NodeI) (pm : Option Nat) (σ : St) (hw : WSt σ) :
    Ext σ (n.cascadeMeta pm σ).2 ∧ WSt (n.cascadeMeta pm σ).2 ∧
    (metaAddrOf (n.cascadeMeta pm σ).1 = none ∨
      ∃ a, metaAddrOf (n.cascadeMeta pm σ).1 = some a ∧ σ.next ≤ a) := by
  cases n with
  | leaf a =>
      simp only [NodeI.cascadeMeta, metaAddrOf]
      exact cascadeMetaI_spec a._metadata pm σ hw
  | comp r i m kids =>
      simp only [NodeI.cascadeMeta, metaAddrOf]
      exact cascadeMetaI_spec m pm σ hw

/-- The copy-out search only extends the store, and the copy it returns
carries fresh-or-absent metadata. -/
theorem caidLoopI_spec : ∀ kids : List NodeI, ∀ (s : String) (meta : Option Nat) (σ : St),
    WSt σ →
    Ext σ (caidLoopI s meta kids σ).2 ∧ WSt (caidLoopI s meta kids σ).2 ∧
    (∀ r, (caidLoopI s meta kids σ).1 = some r →
      metaAddrOf r = none ∨ ∃ a, metaAddrOf r = some a ∧ σ.next ≤ a) := by
  intro kids
  induction kids using NodeI.listInductionOnI with
  | hnil =>
      intro s meta σ hw
      exact ⟨Ext.rfl' σ, hw, by simp [caidLoopI]⟩
  | hleaf a rest ih =>
      intro s meta σ hw
      by_cases hid : a._id = s
      · simp only [caidLoopI, nodeIdOfI, hid, if_pos]
        obtain ⟨hst, hn⟩ := NodeI.copyI_st (.leaf a) σ
        have hw1 : WSt (NodeI.copy (.leaf a) σ).2 := WSt_mono hw hst hn
        obtain ⟨he2, hw2, hfr⟩ :=
          NodeI.cascadeMeta_spec (NodeI.copy (.leaf a) σ).1 meta _ hw1
        refine ⟨Ext.trans' (Ext_of_store_eq hst hn) he2, hw2, ?_⟩
        intro r hr
        cases hr
        rcases hfr with h | ⟨aa, ha, hn2⟩
        · exact Or.inl h
        · exact Or.inr ⟨aa, ha, Nat.le_trans hn hn2⟩
      · simp only [caidLoopI, nodeIdOfI]
        rw [if_neg (by simpa using hid)]
        exact ih s meta σ hw
  | hcomp r i m kids rest ihk ihr =>
      intro s meta σ hw
      by_cases hid : i = some s
      · simp only [caidLoopI, nodeIdOfI, hid, if_pos]
        obtain ⟨hst, hn⟩ := NodeI.copyI_st (.comp r i m kids) σ
        have hw1 : WSt (NodeI.copy (.comp r i m kids) σ).2 := WSt_mono hw hst hn
        obtain ⟨he2, hw2, hfr⟩ :=
          NodeI.cascadeMeta_spec (NodeI.copy (.comp r i m kids) σ).1 meta _ hw1
        refine ⟨Ext.trans' (Ext_of_store_eq hst hn) he2, hw2, ?_⟩
        intro rr hr
        cases hr
        rcases hfr with h | ⟨aa, ha, hn2⟩
        · exact Or.inl h
        · exact Or.inr ⟨aa, ha, Nat.le_trans hn hn2⟩
      · simp only [caidLoopI, nodeIdOfI]
        rw [if_neg hid]
        simp only [caidNodeI]
        obtain ⟨hek, hwk, hfk⟩ := ihk s m σ hw
        rcases hp : caidLoopI s m kids σ with ⟨res, σ1⟩
        rw [hp] at hek hwk hfk
        cases res with
        | some found =>
            obtain ⟨he2, hw2, hfr⟩ := NodeI.cascadeMeta_spec found meta σ1 hwk
            refine ⟨Ext.trans' hek he2, hw2, ?_⟩
            intro rr hr
            cases hr
            rcases hfr with h | ⟨aa, ha, hn2⟩
            · exact Or.inl h
            · exact Or.inr ⟨aa, ha, Nat.le_trans hek.1 hn2⟩
        | none =>
            obtain ⟨her, hwr, hfr⟩ := ihr s meta σ1 hwk
            refine ⟨Ext.trans' hek her, hwr, ?_⟩
            intro rr hr
            rcases hfr rr hr with h | ⟨aa, ha, hn2⟩
            · exact Or.inl h
            · exact Or.inr ⟨aa, ha, Nat.le_trans hek.1 hn2⟩

end Ident

namespace Ident

/-- Metadata erasure reads one address. -/
theorem eraseMeta_congr (m : Option Nat) (st st' : List (Nat × MetaFs))
    (h : ∀ a, m = some a → storeGetL st' a = storeGetL st a) :
    eraseMeta st' m = eraseMeta st m := by
  cases m with
  | none => rfl
  | some addr => simp only [eraseMeta, h addr rfl]

/-- Erasing a leaf reads the store at its metadata address only. -/
theorem AffordanceI.eraseI_congr (a : AffordanceI) (st st' : List (Nat × MetaFs))
    (h : ∀ x, a._metadata = some x → storeGetL st' x = storeGetL st x) :
    a.erase st' = a.erase st := by
  simp only [AffordanceI.erase, eraseMeta_congr a._metadata st st' h]

/-- Erasing a member list reads the store at the list's metadata
addresses only. -/
theorem NodeI.eraseList_congr : ∀ l : List NodeI, ∀ st st' : List (Nat × MetaFs),
    (∀ a ∈ NodeI.metaAddrsList l, storeGetL st' a = storeGetL st a) →
    NodeI.eraseList st' l = NodeI.eraseList st l := by
  intro l
  induction l using NodeI.listInductionOnI with
  | hnil => intro st st' _; rfl
  | hleaf a rest ih =>
      intro st st' h
      simp only [NodeI.eraseList, NodeI.erase]
      refine congrArg₂ _ ?_ ?_
      · refine congrArg _ (AffordanceI.eraseI_congr a st st' ?_)
        intro x hx
        exact h x (by simp [NodeI.metaAddrsList, NodeI.metaAddrs, hx])
      · refine ih st st' ?_
        intro x hx
        exact h x (by simp [NodeI.metaAddrsList, hx])
  | hcomp r i m kids rest ihk ihr =>
      intro st st' h
      simp only [NodeI.eraseList, NodeI.erase]
      refine congrArg₂ _ (congrArg₂ _ ?_ ?_) ?_
      · refine eraseMeta_congr m st st' ?_
        intro x hx
        exact h x (by simp [NodeI.metaAddrsList, NodeI.metaAddrs, hx])
      · refine ihk st st' ?_
        intro x hx
        exact h x (by simp [NodeI.metaAddrsList, NodeI.metaAddrs, hx])
      · refine ihr st st' ?_
        intro x hx
        exact h x (by simp [NodeI.metaAddrsList, hx])

/-- Erasure only reads the store at the tree's own metadata addresses. -/
theorem NodeI.eraseTreeI_congr (n : NodeI) (st st' : List (Nat × MetaFs))
    (h : ∀ a ∈ NodeI.metaAddrs n, storeGetL st' a = storeGetL st a) :
    NodeI.erase st' n = NodeI.erase st n := by
  cases n with
  | leaf a =>
      simp only [NodeI.erase]
      refine congrArg _ (AffordanceI.eraseI_congr a st st' ?_)
      intro x hx
      exact h x (by simp [NodeI.metaAddrs, hx])
  | comp r i m kids =>
      simp only [NodeI.erase]
      refine congrArg₂ _ ?_ ?_
      · refine eraseMeta_congr m st st' ?_
        intro x hx
        exact h x (by simp [NodeI.metaAddrs, hx])
      · refine NodeI.eraseList_congr kids st st' ?_
        intro x hx
        exact h x (by simp [NodeI.metaAddrs, hx])

end Ident

namespace Ident

/-- C2: `copyAffordanceById` never mutates the original tree — every
stored metadata object survives unchanged, the original tree erases to
the same value after the call, and the returned copy's merged metadata
lives in a freshly allocated object (or is absent). -/
theorem copyAffordanceById_frame (r0 : Nat) (i : Option String) (m : Option Nat)
    (kids : List NodeI) (idv : JsVal) (σ : St)
    (hw : WSt σ)
    (haddr : ∀ a ∈ NodeI.metaAddrs (.comp r0 i m kids),
      (storeGet σ a).isSome = true) :
    (∀ a fs, storeGet σ a = some fs →
      storeGet ((NodeI.comp r0 i m kids).copyAffordanceById idv σ).2 a = some fs) ∧
    WSt ((NodeI.comp r0 i m kids).copyAffordanceById idv σ).2 ∧
    σ.next ≤ ((NodeI.comp r0 i m kids).copyAffordanceById idv σ).2.next ∧
    NodeI.erase ((NodeI.comp r0 i m kids).copyAffordanceById idv σ).2.store
        (.comp r0 i m kids)
      = NodeI.erase σ.store (.comp r0 i m kids) ∧
    (∀ r, ((NodeI.comp r0 i m kids).copyAffordanceById idv σ).1 = some r →
      metaAddrOf r = none ∨ ∃ a, metaAddrOf r = some a ∧ σ.next ≤ a) := by
  cases idv with
  | jstr s =>
      obtain ⟨hek, hwk, hfr⟩ := caidLoopI_spec kids s m σ hw
      refine ⟨hek.2, hwk, hek.1, ?_, hfr⟩
      refine NodeI.eraseTreeI_congr _ _ _ ?_
      intro a ha
      obtain ⟨fs, hfs⟩ := Option.isSome_iff_exists.mp (haddr a ha)
      have h1 : storeGet σ a = some fs := hfs
      have h2 := hek.2 a fs h1
      show storeGetL _ a = storeGetL σ.store a
      exact h2.trans h1.symm
  | undefined => exact ⟨fun a fs h => h, hw, Nat.le_refl _, rfl, by simp [NodeI.copyAffordanceById]⟩
  | jnull => exact ⟨fun a fs h => h, hw, Nat.le_refl _, rfl, by simp [NodeI.copyAffordanceById]⟩
  | jbool b => exact ⟨fun a fs h => h, hw, Nat.le_refl _, rfl, by simp [NodeI.copyAffordanceById]⟩
  | jnum n => exact ⟨fun a fs h => h, hw, Nat.le_refl _, rfl, by simp [NodeI.copyAffordanceById]⟩
  | jarr xs => exact ⟨fun a fs h => h, hw, Nat.le_refl _, rfl, by simp [NodeI.copyAffordanceById]⟩
  | jobj fs => exact ⟨fun a fs h => h, hw, Nat.le_refl _, rfl, by simp [NodeI.copyAffordanceById]⟩

end Ident

namespace Ident

theorem copyAffordanceById_frame_w :
    (∀ a fs, storeGet ⟨2, [(0, [("a", JsVal.jnum 1)]), (1, [("b", JsVal.jnum 3)])]⟩ a = some fs →
      storeGet ((NodeI.comp 10 none (some 0)
          [NodeI.leaf ⟨11, "L", "GET", "/l", .undefined, some 1, none,
            [("*", .jarr [.jstr "L"])]⟩]).copyAffordanceById (.jstr "L")
          ⟨2, [(0, [("a", JsVal.jnum 1)]), (1, [("b", JsVal.jnum 3)])]⟩).2 a = some fs) ∧
    WSt ((NodeI.comp 10 none (some 0)
        [NodeI.leaf ⟨11, "L", "GET", "/l", .undefined, some 1, none,
          [("*", .jarr [.jstr "L"])]⟩]).copyAffordanceById (.jstr "L")
        ⟨2, [(0, [("a", JsVal.jnum 1)]), (1, [("b", JsVal.jnum 3)])]⟩).2 ∧
    (⟨2, [(0, [("a", JsVal.jnum 1)]), (1, [("b", JsVal.jnum 3)])]⟩ : St).next ≤
      ((NodeI.comp 10 none (some 0)
        [NodeI.leaf ⟨11, "L", "GET", "/l", .undefined, some 1, none,
          [("*", .jarr [.jstr "L"])]⟩]).copyAffordanceById (.jstr "L")
        ⟨2, [(0, [("a", JsVal.jnum 1)]), (1, [("b", JsVal.jnum 3)])]⟩).2.next ∧
    NodeI.erase ((NodeI.comp 10 none (some 0)
        [NodeI.leaf ⟨11, "L", "GET", "/l", .undefined, some 1, none,
          [("*", .jarr [.jstr "L"])]⟩]).copyAffordanceById (.jstr "L")
        ⟨2, [(0, [("a", JsVal.jnum 1)]), (1, [("b", JsVal.jnum 3)])]⟩).2.store
        (.comp 10 none (some 0)
          [NodeI.leaf ⟨11, "L", "GET", "/l", .undefined, some 1, none,
            [("*", .jarr [.jstr "L"])]⟩])
      = NodeI.erase [(0, [("a", JsVal.jnum 1)]), (1, [("b", JsVal.jnum 3)])]
        (.comp 10 none (some 0)
          [NodeI.leaf ⟨11, "L", "GET", "/l", .undefined, some 1, none,
            [("*", .jarr [.jstr "L"])]⟩]) ∧
    (∀ r, ((NodeI.comp 10 none (some 0)
        [NodeI.leaf ⟨11, "L", "GET", "/l", .undefined, some 1, none,
          [("*", .jarr [.jstr "L"])]⟩]).copyAffordanceById (.jstr "L")
        ⟨2, [(0, [("a", JsVal.jnum 1)]), (1, [("b", JsVal.jnum 3)])]⟩).1 = some r →
      metaAddrOf r = none ∨ ∃ a, metaAddrOf r = some a ∧
        (⟨2, [(0, [("a", JsVal.jnum 1)]), (1, [("b", JsVal.jnum 3)])]⟩ : St).next ≤ a) :=
  copyAffordanceById_frame 10 none (some 0)
    [NodeI.leaf ⟨11, "L", "GET", "/l", .undefined, some 1, none,
      [("*", .jarr [.jstr "L"])]⟩] (.jstr "L")
    ⟨2, [(0, [("a", JsVal.jnum 1)]), (1, [("b", JsVal.jnum 3)])]⟩
    (by unfold WSt; decide) (by decide)

end Ident

namespace Ident

/-- An erased metadata address is undefined or a plain object. -/
theorem eraseMeta_shape (st : List (Nat × MetaFs)) (x : Option Nat) :
    eraseMeta st x = .undefined ∨ ∃ fs, eraseMeta st x = .jobj fs := by
  cases x with
  | none => exact Or.inl rfl
  | some a =>
      simp only [eraseMeta]
      cases storeGetL st a with
      | none => exact Or.inl rfl
      | some fs => exact Or.inr ⟨fs, rfl⟩

/-- Copying a control list: fresh tags, untouched store, and values
that are exactly the pure copies. -/
theorem copyInputs_spec : ∀ (l : List InputI) (σ : St),
    (copyInputs l σ).1.map InputI.val = l.map (fun i => i.val.copy) ∧
    (∀ r ∈ (copyInputs l σ).1.map InputI.ref, σ.next ≤ r ∧ r < (copyInputs l σ).2.next) := by
  intro l
  induction l with
  | nil => intro σ; exact ⟨rfl, by simp [copyInputs]⟩
  | cons i rest ih =>
      intro σ
      obtain ⟨h1, h2⟩ := ih (allocRef σ).2
      obtain ⟨hst, hn⟩ := copyInputs_st rest (allocRef σ).2
      constructor
      · simp only [copyInputs, InputI.copy, List.map_cons, h1]
      · simp only [copyInputs, InputI.copy, List.map_cons, List.mem_cons]
        intro r hr
        rcases hr with rfl | hr
        · exact ⟨Nat.le_refl _, Nat.lt_of_lt_of_le (Nat.lt_succ_self _) hn⟩
        · obtain ⟨ha, hb⟩ := h2 r hr
          exact ⟨Nat.le_trans (Nat.le_succ _) ha, hb⟩

end Ident

namespace Ident

/-- Erasing the identity copy of an affordance gives exactly the pure
copy of its erasure. -/
theorem AffordanceI.copy_commute (a : AffordanceI) (σ : St) :
    AffordanceI.erase σ.store (a.copy σ).1 = Affordance.copy (a.erase σ.store) := by
  cases hc : a._controls with
  | none =>
      simp only [AffordanceI.copy, hc, AffordanceI.erase, Affordance.copy, mkAffordance,
        Affordance.setRelation, Affordance.setMetadata, Option.map_none']
      rcases eraseMeta_shape σ.store a._metadata with hm | ⟨mfs, hm⟩ <;>
        rw [hm] <;> by_cases hr : a._relation.isStr = true <;>
          simp [hr, JsVal.isObjLike]
  | some l =>
      cases l with
      | nil =>
          simp only [AffordanceI.copy, hc, AffordanceI.erase, Affordance.copy, mkAffordance,
            Affordance.setRelation, Affordance.setMetadata, Option.map_some']
          rcases eraseMeta_shape σ.store a._metadata with hm | ⟨mfs, hm⟩ <;>
            rw [hm] <;> by_cases hr : a._relation.isStr = true <;>
              simp [hr, JsVal.isObjLike]
      | cons c cs =>
          obtain ⟨hvals, _⟩ := copyInputs_spec (c :: cs) (allocRef σ).2
          simp only [AffordanceI.copy, hc, AffordanceI.erase, Affordance.copy, mkAffordance,
            Affordance.setRelation, Affordance.setMetadata, Option.map_some', hvals,
            List.map_cons, List.map_map]
          rcases eraseMeta_shape σ.store a._metadata with hm | ⟨mfs, hm⟩ <;>
            rw [hm] <;> by_cases hr : a._relation.isStr = true <;>
              simp [hr, JsVal.isObjLike, Function.comp]
end Ident

namespace Ident

/-- Refs of an identity-copied leaf are fresh. -/
theorem leaf_copy_refs (a : AffordanceI) (σ : St) :
    ∀ r ∈ NodeI.refs (.leaf (a.copy σ).1), σ.next ≤ r ∧ r < (a.copy σ).2.next := by
  cases hc : a._controls with
  | none =>
      simp only [AffordanceI.copy, hc, NodeI.refs]
      intro r hr
      rcases List.mem_cons.mp hr with rfl | hr
      · exact ⟨Nat.le_refl _, Nat.lt_succ_self _⟩
      · simp at hr
  | some l =>
      cases l with
      | nil =>
          simp only [AffordanceI.copy, hc, NodeI.refs]
          intro r hr
          rcases List.mem_cons.mp hr with rfl | hr
          · exact ⟨Nat.le_refl _, Nat.lt_succ_self _⟩
          · simp at hr
      | cons c cs =>
          obtain ⟨_, hrefs⟩ := copyInputs_spec (c :: cs) (allocRef σ).2
          obtain ⟨_, hn⟩ := copyInputs_st (c :: cs) (allocRef σ).2
          simp only [AffordanceI.copy, hc, NodeI.refs]
          intro r hr
          rcases List.mem_cons.mp hr with rfl | hr
          · exact ⟨Nat.le_refl _, Nat.lt_of_succ_le hn⟩
          · simp only [Option.getD_some] at hr
            obtain ⟨ha, hb⟩ := hrefs r hr
            exact ⟨Nat.le_trans (Nat.le_succ _) ha, hb⟩

/-- Copying a member list only draws tags. -/
theorem NodeI.copyList_st : ∀ (l : List NodeI) (σ : St),
    (NodeI.copyList l σ).2.store = σ.store ∧ σ.next ≤ (NodeI.copyList l σ).2.next := by
  intro l
  induction l with
  | nil => intro σ; exact ⟨rfl, Nat.le_refl _⟩
  | cons n rest ih =>
      intro σ
      simp only [NodeI.copyList]
      obtain ⟨h1, h2⟩ := NodeI.copyI_st n σ
      obtain ⟨h3, h4⟩ := ih (NodeI.copy n σ).2
      exact ⟨h3.trans h1, Nat.le_trans h2 h4⟩

/-- One step of the `addAffordance(child.copy())` loop. -/
theorem copyList_cons_step (n : NodeI) (rest : List NodeI)
    (hnode : CopyNodeProp n) (ihl : CopyListProp rest) : CopyListProp (n :: rest) := by
  intro σ
  obtain ⟨hst, hn⟩ := NodeI.copyI_st n σ
  obtain ⟨he, hr⟩ := hnode σ
  obtain ⟨hel, hrl⟩ := ihl (NodeI.copy n σ).2
  obtain ⟨hst2, hn2⟩ := NodeI.copyList_st rest (NodeI.copy n σ).2
  constructor
  · simp only [NodeI.copyList, NodeI.eraseList, Node.copyList]
    rw [he]
    rw [hst] at hel
    rw [hel]
  · simp only [NodeI.copyList, NodeI.refsList]
    intro r hr2
    rcases List.mem_append.mp hr2 with h | h
    · obtain ⟨ha, hb⟩ := hr r h
      exact ⟨ha, Nat.lt_of_lt_of_le hb hn2⟩
    · obtain ⟨ha, hb⟩ := hrl r h
      exact ⟨Nat.le_trans hn ha, hb⟩

/-- Identity copy of a leaf: commute and freshness. -/
theorem copy_leaf_prop (a : AffordanceI) : CopyNodeProp (.leaf a) := by
  intro σ
  constructor
  · show NodeI.erase σ.store (.leaf (a.copy σ).1) = _
    simp only [NodeI.erase, AffordanceI.copy_commute a σ]
    rfl
  · exact leaf_copy_refs a σ

/-- Identity copy: fresh tags everywhere and erasure commuting with the
pure copy. -/
theorem NodeI.copy_spec : ∀ n : NodeI, CopyNodeProp n := by
  have main : ∀ l : List NodeI, CopyListProp l ∧ ∀ n ∈ l, CopyNodeProp n := by
    intro l
    induction l using NodeI.listInductionOnI with
    | hnil =>
        refine ⟨fun σ => ⟨rfl, by simp [NodeI.copyList, NodeI.refsList]⟩, by simp⟩
    | hleaf a rest ih =>
        refine ⟨copyList_cons_step _ _ (copy_leaf_prop a) ih.1, ?_⟩
        intro n hn
        rcases List.mem_cons.mp hn with rfl | hn
        · exact copy_leaf_prop a
        · exact ih.2 n hn
    | hcomp r i m kids rest ihk ihr =>
        have hcompnode : CopyNodeProp (.comp r i m kids) := by
          intro σ
          have hkl := ihk.1 (allocRef σ).2
          obtain ⟨hkst, hkn⟩ := NodeI.copyList_st kids (allocRef σ).2
          constructor
          · show NodeI.erase σ.store
                (.comp σ.next i m (NodeI.copyList kids (allocRef σ).2).1) = _
            simp only [NodeI.erase, Node.copy]
            have he := hkl.1
            rw [(show ((allocRef σ).2).store = σ.store from rfl)] at he
            rw [he]
            rcases eraseMeta_shape σ.store m with hm | ⟨mfs, hm⟩ <;>
              rw [hm] <;> rfl
          · show ∀ x ∈ NodeI.refs
                (.comp σ.next i m (NodeI.copyList kids (allocRef σ).2).1), _
            simp only [NodeI.refs]
            intro x hx
            rcases List.mem_cons.mp hx with rfl | hx
            · exact ⟨Nat.le_refl _, Nat.lt_of_succ_le hkn⟩
            · obtain ⟨ha, hb⟩ := hkl.2 x hx
              exact ⟨Nat.le_trans (Nat.le_succ _) ha, hb⟩
        refine ⟨copyList_cons_step _ _ hcompnode ihr.1, ?_⟩
        intro n hn
        rcases List.mem_cons.mp hn with rfl | hn
        · exact hcompnode
        · exact ihr.2 n hn
  intro n
  cases n with
  | leaf a => exact copy_leaf_prop a
  | comp r i m kids => exact (main [NodeI.comp r i m kids]).2 _ (List.mem_cons_self _ _)

end Ident

/-- Inversion of the optional-string field invariant. -/
theorem wfStrOpt_cases (v : JsVal) (h : wfStrOpt v = true) :
    v = .undefined ∨ ∃ s, v = .jstr s := by
  cases v with
  | undefined => exact Or.inl rfl
  | jstr s => exact Or.inr ⟨s, rfl⟩
  | jnull => simp [wfStrOpt] at h
  | jbool b => simp [wfStrOpt] at h
  | jnum n => simp [wfStrOpt] at h
  | jarr xs => simp [wfStrOpt] at h
  | jobj fs => simp [wfStrOpt] at h

/-- Inversion of the optional-boolean field invariant. -/
theorem wfBoolOpt_cases (v : JsVal) (h : wfBoolOpt v = true) :
    v = .undefined ∨ ∃ b, v = .jbool b := by
  cases v with
  | undefined => exact Or.inl rfl
  | jbool b => exact Or.inr ⟨b, rfl⟩
  | jnull => simp [wfBoolOpt] at h
  | jstr s => simp [wfBoolOpt] at h
  | jnum n => simp [wfBoolOpt] at h
  | jarr xs => simp [wfBoolOpt] at h
  | jobj fs => simp [wfBoolOpt] at h

/-- Inversion of the optional-non-empty-array field invariant. -/
theorem wfArrOpt_cases (v : JsVal) (h : wfArrOpt v = true) :
    v = .undefined ∨ ∃ x xs, v = .jarr (x :: xs) := by
  cases v with
  | undefined => exact Or.inl rfl
  | jarr xs =>
      cases xs with
      | nil => simp [wfArrOpt] at h
      | cons x rest => exact Or.inr ⟨x, rest, rfl⟩
  | jnull => simp [wfArrOpt] at h
  | jstr s => simp [wfArrOpt] at h
  | jnum n => simp [wfArrOpt] at h
  | jbool b => simp [wfArrOpt] at h
  | jobj fs => simp [wfArrOpt] at h

/-- Source `setValue` on a defined value installs it. -/
theorem Input.setValue_defined (i : Input) (v : JsVal) (h : v ≠ .undefined) :
    i.setValue v = { i with _value := v } := by
  cases v <;> first | exact absurd rfl h | rfl

/-- A reachable `Input` is a fixed point of `copy`. -/
theorem Input.copy_eq_self (i : Input) (h : Input.WF i = true) : i.copy = i := by
  obtain ⟨iid, ival, iacc, ireq, ilab, ihid, irdo, iopt, irgx⟩ := i
  simp only [Input.WF, Bool.and_eq_true] at h
  obtain ⟨⟨⟨⟨⟨⟨⟨hval, hacc⟩, hreq⟩, hlab⟩, hhid⟩, hrdo⟩, hopt⟩, hrgx⟩ := h
  have hv : ival ≠ .undefined := by cases ival <;> simp_all
  rcases wfArrOpt_cases _ hacc with rfl | ⟨x1, xs1, rfl⟩ <;>
    rcases wfBoolOpt_cases _ hreq with rfl | ⟨b1, rfl⟩ <;>
    rcases wfStrOpt_cases _ hlab with rfl | ⟨s1, rfl⟩ <;>
    rcases wfBoolOpt_cases _ hhid with rfl | ⟨b2, rfl⟩ <;>
    rcases wfBoolOpt_cases _ hrdo with rfl | ⟨b3, rfl⟩ <;>
    rcases wfArrOpt_cases _ hopt with rfl | ⟨x2, xs2, rfl⟩ <;>
    rcases wfStrOpt_cases _ hrgx with rfl | ⟨s2, rfl⟩ <;>
    (unfold Input.copy; rw [Input.setValue_defined _ ival hv]; rfl)

/-- A reachable `Affordance` copies to itself with the message table
reset. -/
theorem Affordance.copy_eq_reset (a : Affordance) (h : Affordance.WF a = true) :
    a.copy = { a with _messages := [("*", .jarr [.jstr a._id])] } := by
  obtain ⟨aid, am, au, arel, amd, actl, amsg⟩ := a
  simp only [Affordance.WF, Bool.and_eq_true] at h
  obtain ⟨⟨hrel, hmd⟩, hctl⟩ := h
  cases actl with
  | none =>
      rcases wfStrOpt_cases _ hrel with rfl | ⟨s, rfl⟩ <;>
        rcases wfMetaVal_cases _ hmd with rfl | ⟨fs, rfl, _⟩ <;> rfl
  | some l =>
      cases l with
      | nil => simp at hctl
      | cons c cs =>
          simp only [List.all_eq_true] at hctl
          have hmap : (c :: cs).map Input.copy = c :: cs := by
            have : ∀ x ∈ c :: cs, Input.copy x = x :=
              fun x hx => Input.copy_eq_self x (hctl x hx)
            calc (c :: cs).map Input.copy = (c :: cs).map id := List.map_congr_left this
              _ = c :: cs := List.map_id _
          rcases wfStrOpt_cases _ hrel with rfl | ⟨s, rfl⟩ <;>
            rcases wfMetaVal_cases _ hmd with rfl | ⟨fs, rfl, _⟩ <;>
            (show Affordance.copy _ = _
             unfold Affordance.copy
             simp only [hmap]
             rfl)

/-- On reachable trees the pure copy is exactly "reset every message
table". -/
theorem Node.copy_eq_resetMessages :
    ∀ n : Node, Node.WF n = true → Node.copy n = resetMessages n := by
  have main : ∀ l : List Node, Node.WFList l = true →
      Node.copyList l = resetMessagesList l := by
    intro l
    induction l using Node.listInductionOn with
    | hnil => intro _; rfl
    | hleaf a rest ih =>
        intro h
        simp only [Node.WFList, Node.WF, Bool.and_eq_true] at h
        simp only [Node.copyList, resetMessagesList, Node.copy, resetMessages]
        rw [Affordance.copy_eq_reset a h.1, ih h.2]
    | hcomp i m kids rest ihk ihr =>
        intro h
        simp only [Node.WFList, Node.WF, Bool.and_eq_true] at h
        simp only [Node.copyList, resetMessagesList, Node.copy, resetMessages]
        rw [ihk h.1.2, ihr h.2]
        rcases wfMetaVal_cases _ h.1.1 with rfl | ⟨fs, heq, _⟩
        · rfl
        · rw [heq]; rfl
  intro n h
  cases n with
  | leaf a =>
      simp only [Node.WF] at h
      simp only [Node.copy, resetMessages]
      rw [Affordance.copy_eq_reset a h]
  | comp i m kids =>
      simp only [Node.WF, Bool.and_eq_true] at h
      simp only [Node.copy, resetMessages]
      rw [main kids h.2]
      rcases wfMetaVal_cases _ h.1 with rfl | ⟨fs, heq, _⟩
      · rfl
      · rw [heq]; rfl

namespace Ident

/-- C4 amended: `Affordances.copy` reproduces the tree up to resetting
every affordance's message table, and shares no node identity with the
original. -/
theorem copy_structural_and_fresh (T : NodeI) (σ : St)
    (hrefs : ∀ r ∈ NodeI.refs T, r < σ.next)
    (hwf : Node.WF (NodeI.erase σ.store T) = true) :
    NodeI.erase ((NodeI.copy T σ).2).store ((NodeI.copy T σ).1)
      = resetMessages (NodeI.erase σ.store T) ∧
    (∀ r ∈ NodeI.refs (NodeI.copy T σ).1, ∀ r' ∈ NodeI.refs T, r ≠ r') := by
  obtain ⟨hst, hn⟩ := NodeI.copyI_st T σ
  obtain ⟨hcomm, hfresh⟩ := NodeI.copy_spec T σ
  constructor
  · rw [hst, hcomm, Node.copy_eq_resetMessages _ hwf]
  · intro r hr r' hr'
    obtain ⟨ha, _⟩ := hfresh r hr
    have hb := hrefs r' hr'
    omega

theorem copy_structural_and_fresh_w :
    NodeI.erase ((NodeI.copy
        (.comp 5 (some "R") (some 0)
          [.leaf ⟨6, "A", "GET", "/a", .jstr "rel", some 1,
            some [⟨7, mkInput (.jstr "i") (.jnum 1)⟩], [("*", .jarr [.jstr "A"])]⟩])
        ⟨10, [(0, [("a", JsVal.jnum 1)]), (1, [("b", JsVal.jnum 2)])]⟩).2).store
      ((NodeI.copy
        (.comp 5 (some "R") (some 0)
          [.leaf ⟨6, "A", "GET", "/a", .jstr "rel", some 1,
            some [⟨7, mkInput (.jstr "i") (.jnum 1)⟩], [("*", .jarr [.jstr "A"])]⟩])
        ⟨10, [(0, [("a", JsVal.jnum 1)]), (1, [("b", JsVal.jnum 2)])]⟩).1)
      = resetMessages (NodeI.erase
        [(0, [("a", JsVal.jnum 1)]), (1, [("b", JsVal.jnum 2)])]
        (.comp 5 (some "R") (some 0)
          [.leaf ⟨6, "A", "GET", "/a", .jstr "rel", some 1,
            some [⟨7, mkInput (.jstr "i") (.jnum 1)⟩], [("*", .jarr [.jstr "A"])]⟩])) ∧
    (∀ r ∈ NodeI.refs (NodeI.copy
        (.comp 5 (some "R") (some 0)
          [.leaf ⟨6, "A", "GET", "/a", .jstr "rel", some 1,
            some [⟨7, mkInput (.jstr "i") (.jnum 1)⟩], [("*", .jarr [.jstr "A"])]⟩])
        ⟨10, [(0, [("a", JsVal.jnum 1)]), (1, [("b", JsVal.jnum 2)])]⟩).1,
      ∀ r' ∈ NodeI.refs (NodeI.comp 5 (some "R") (some 0)
          [.leaf ⟨6, "A", "GET", "/a", .jstr "rel", some 1,
            some [⟨7, mkInput (.jstr "i") (.jnum 1)⟩], [("*", .jarr [.jstr "A"])]⟩]),
        r ≠ r') :=
  copy_structural_and_fresh
    (.comp 5 (some "R") (some 0)
      [.leaf ⟨6, "A", "GET", "/a", .jstr "rel", some 1,
        some [⟨7, mkInput (.jstr "i") (.jnum 1)⟩], [("*", .jarr [.jstr "A"])]⟩])
    ⟨10, [(0, [("a", JsVal.jnum 1)]), (1, [("b", JsVal.jnum 2)])]⟩
    (by decide) (by decide)

end Ident

/-- C4 as stated is false: fields are not all preserved — an added
message is dropped by the copy. -/
theorem node_copy_counterexample :
    Node.copy (.comp none .undefined
        [.leaf ((mkAffordance (.jstr "A") (.jstr "GET") (.jstr "/a")).addMessage
          (.jstr "200") (.jarr [.jstr "ok"]))])
      ≠ .comp none .undefined
        [.leaf ((mkAffordance (.jstr "A") (.jstr "GET") (.jstr "/a")).addMessage
          (.jstr "200") (.jarr [.jstr "ok"]))] := by
  intro h
  have h3 := congrArg (fun n => match n with
    | Node.comp _ _ [Node.leaf x] => (lookupField x._messages "200").isSome
    | _ => false) h
  have h2 : false = true := h3
  cases h2
